import Mathlib

/-!
Verification of the mancala terminal game engine (`mancala.py`).

The engine is a pair of classes: `MancalaBucket` (one pit or scoring store,
holding a bead count) and `MancalaBoard` (all buckets, the circular sowing
order, the opposite-pit map, `move`, `check_victory`).  The embedding below
represents the mutable object graph as follows:

* bead counts are `Nat` (the source validates, in `MancalaBucket.add_beads`,
  that every added amount is a non-negative `int`, and the only other
  mutation sets a count to zero, so all reachable counts are naturals);
* the identities of the `2*N + 2` bucket objects the constructor creates are
  the inductive `Slot`; the attributes the constructor fixes on each object
  (`number`, `scoring`, `owner`) and the `next_bucket` links it wires are
  functions on `Slot` (see `Slot.next_bucket` for the exact link trace);
* a board state is the tuple of mutable bead counts (`MancalaBoard`);
* a Python `raise` is an `Except.error` carrying the exception class and its
  message argument; a crash on a broken invariant (`AttributeError` from a
  `None` link, `KeyError` from a missing dict key, `IndexError`) is `none`.
-/

namespace Mancala

/-- The two exception classes declared in `mancala.py` (`MoveError`,
`BeadCountError`), together with the optional message argument they are
raised with (`raise MoveError` carries no message, `raise MoveError("...")`
carries one). -/
inductive MancalaError where
  | MoveError (msg : Option String)
  | BeadCountError (msg : Option String)
deriving DecidableEq, Repr

/-- The name of the exception class of an error: the unit of discrimination
available to a Python `except` handler. -/
def MancalaError.className : MancalaError → String
  | .MoveError _ => "MoveError"
  | .BeadCountError _ => "BeadCountError"

/-- Decidable equality of call outcomes, used to evaluate the engine on
concrete boards. -/
instance {ε α : Type _} [DecidableEq ε] [DecidableEq α] :
    DecidableEq (Except ε α) := fun x y =>
  match x, y with
  | .error e, .error f => decidable_of_iff (e = f) (by simp)
  | .ok a, .ok b => decidable_of_iff (a = b) (by simp)
  | .error _, .ok _ => isFalse (fun hc => Except.noConfusion hc)
  | .ok _, .error _ => isFalse (fun hc => Except.noConfusion hc)

/-- Embedding of `MancalaBucket` (source lines 31–87): one pit or scoring store.  The
`next_bucket` reference is part of the board-level object graph and is
represented by `Slot.next_bucket` below, not stored in the structure. -/
structure MancalaBucket where
  number : Int
  scoring : Bool
  owner : Nat
  num_beads : Nat
deriving DecidableEq, Repr

/-- Embedding of `MancalaBucket.get_beads` (lines 69–75): raises `MoveError` on a scoring
bucket (the source message reads "Can't remove beads from a scoring bucket.",
written here without the contraction); otherwise returns the bead count and
the bucket with its count reset to zero.  The raise happens before the count
is touched, so the error case carries no new bucket state. -/
def MancalaBucket.get_beads (self : MancalaBucket) :
    Except MancalaError (Nat × MancalaBucket) :=
  if self.scoring then
    Except.error (MancalaError.MoveError
      (some "Cannot remove beads from a scoring bucket."))
  else
    Except.ok (self.num_beads, { self with num_beads := 0 })

/-- Embedding of `MancalaBucket.add_beads` (lines 77–83): raises `BeadCountError` when the
amount is negative; the `isinstance(num_beads, int)` check is carried by the
`Int` argument type.  Otherwise increments the count. -/
def MancalaBucket.add_beads (self : MancalaBucket) (num_beads : Int) :
    Except MancalaError MancalaBucket :=
  if num_beads < 0 then
    Except.error (MancalaError.BeadCountError
      (some "The number of beads must be a positive integer or zero."))
  else
    Except.ok { self with num_beads := self.num_beads + num_beads.toNat }

/-- Embedding of `MancalaBucket.add_bead` (lines 85–87): `add_beads(1)`, which always
succeeds since `1 ≥ 0`; `add_beads_one` below proves the agreement. -/
def MancalaBucket.add_bead (self : MancalaBucket) : MancalaBucket :=
  { self with num_beads := self.num_beads + 1 }

/-- Identities of the `2*N + 2` bucket objects `MancalaBoard.__init__`
creates: the non-scoring pits `MancalaBucket(i, False, owner)` for
`0 ≤ i < 2*N` (appended, in order, to `self.buckets`), player 1's scoring
bucket `MancalaBucket(-1, True, 1)` and player 2's scoring bucket
`MancalaBucket(-2, True, 2)` (which are not in `self.buckets`). -/
inductive Slot where
  | pit (i : Nat)
  | p1_scoring
  | p2_scoring
deriving DecidableEq, Repr

/-- The `scoring` attribute fixed at construction: `False` for every pit,
`True` for the two scoring buckets. -/
def Slot.scoring : Slot → Bool
  | .pit _ => false
  | .p1_scoring => true
  | .p2_scoring => true

/-- The `owner` attribute fixed at construction (with `nbpp` pits per
player): pits `0..nbpp-1` belong to player 1, pits `nbpp..2*nbpp-1` to
player 2; each scoring bucket belongs to its player. -/
def Slot.owner (nbpp : Nat) : Slot → Nat
  | .pit i => if i < nbpp then 1 else 2
  | .p1_scoring => 1
  | .p2_scoring => 2

/-- The `number` attribute fixed at construction: pit `i` has number `i`;
player 1's scoring bucket has number `-1`, player 2's has number `-2`. -/
def Slot.number : Slot → Int
  | .pit i => (i : Int)
  | .p1_scoring => -1
  | .p2_scoring => -2

/-- The `next_bucket` links as `MancalaBoard.__init__` (lines 98–118) leaves
them.  Tracing every `set_next_bucket` call in order, for `nbpp ≥ 1`:

1. the first loop links `pit (i-1) → pit i` for `1 ≤ i ≤ nbpp - 1`;
2. line 107 links `pit (nbpp-1) → p2_scoring` — but `p2_scoring` is never
   appended to `self.buckets`, so at the first iteration of the second loop
   `self.buckets[-1]` is still `pit (nbpp-1)` and that link is overwritten
   with `pit (nbpp-1) → pit nbpp`; the rest of the second loop links
   `pit (i-1) → pit i` up to `pit (2*nbpp-1)`;
3. line 117 links `pit (2*nbpp-1) → p1_scoring` and line 118 links
   `p1_scoring → pit 0`.

`p2_scoring.next_bucket` is therefore never assigned and remains `None`
(`none` here); the links form a single cycle of length `2*nbpp + 1` that
does not contain `p2_scoring`. -/
def Slot.next_bucket (nbpp : Nat) : Slot → Option Slot
  | .pit i => if i + 1 = 2 * nbpp then some .p1_scoring else some (.pit (i + 1))
  | .p1_scoring => some (.pit 0)
  | .p2_scoring => none

/-- The skip test of the sowing loop (line 136):
`bucket.scoring and bucket.owner != player`. -/
def skip (nbpp player : Nat) (s : Slot) : Bool :=
  s.scoring && (Slot.owner nbpp s != player)

/-- Termination measure for `nextTarget`: 1 when the next bucket exists and
would be skipped, 0 otherwise.  The successor of a skipped (scoring) bucket
is never itself skipped, so the measure drops on the recursive call. -/
def skipDist (nbpp player : Nat) (s : Slot) : Nat :=
  match Slot.next_bucket nbpp s with
  | none => 0
  | some t => if skip nbpp player t then 1 else 0

/-- One iteration step of the sowing loop (lines 134–137): advance along
`next_bucket`, and keep advancing (`continue`) past any bucket with
`bucket.scoring and bucket.owner != player`; `none` when a `None` link is
followed (Python's `AttributeError`). -/
def nextTarget (nbpp player : Nat) (s : Slot) : Option Slot :=
  match h : Slot.next_bucket nbpp s with
  | none => none
  | some t =>
    if hskip : skip nbpp player t = true then nextTarget nbpp player t
    else some t
termination_by skipDist nbpp player s
decreasing_by
  have hs : skipDist nbpp player s = 1 := by
    simp [skipDist, h, hskip]
  have ht : skipDist nbpp player t = 0 := by
    rcases t with i | _ | _
    · simp [skip, Slot.scoring] at hskip
    · simp [skipDist, Slot.next_bucket, skip, Slot.scoring, Slot.owner]
    · simp [skipDist, Slot.next_bucket]
  simp [hs, ht]

/-- The mutable state of a `MancalaBoard`: the bead counts of the `2*nbpp`
non-scoring pits (`pits`, position `i` holding `self.buckets[i].num_beads`)
and of the two scoring buckets.  The topology (attributes, `next_bucket`
links, opposite map) is fixed at construction and carried by the functions
on `Slot` above and `opposite_map`/`get_opposite` below. -/
structure MancalaBoard where
  num_buckets_per_player : Nat
  pits : List Nat
  p1_scoring_bucket : Nat
  p2_scoring_bucket : Nat
deriving DecidableEq, Repr

/-- The bead counts produced by `MancalaBoard.__init__` (lines 92–119) for
`(starting_beads, num_buckets_per_player)` (the source default for the
second argument is 6): each of the `2*nbpp` pits is created with 0 beads and
immediately filled with `starting_beads` via `add_beads` (which validates
non-negativity, hence the `Nat` parameter); the scoring buckets stay at 0.
The constructor needs `num_buckets_per_player ≥ 1` (with zero pits line 107
indexes an empty list). -/
def MancalaBoard.init (starting_beads : Nat) (num_buckets_per_player : Nat) :
    MancalaBoard :=
  { num_buckets_per_player := num_buckets_per_player
    pits := List.replicate (2 * num_buckets_per_player) starting_beads
    p1_scoring_bucket := 0
    p2_scoring_bucket := 0 }

/-- The `num_beads` attribute of the bucket object at a slot. -/
def MancalaBoard.num_beads (b : MancalaBoard) : Slot → Nat
  | .pit i => b.pits.getD i 0
  | .p1_scoring => b.p1_scoring_bucket
  | .p2_scoring => b.p2_scoring_bucket

/-- Writing the `num_beads` attribute of the bucket object at a slot. -/
def MancalaBoard.set_num_beads (b : MancalaBoard) : Slot → Nat → MancalaBoard
  | .pit i, n => { b with pits := b.pits.set i n }
  | .p1_scoring, n => { b with p1_scoring_bucket := n }
  | .p2_scoring, n => { b with p2_scoring_bucket := n }

/-- The full bucket object at a slot: attributes fixed at construction plus
the current bead count. -/
def MancalaBoard.bucket (b : MancalaBoard) (s : Slot) : MancalaBucket :=
  { number := s.number
    scoring := s.scoring
    owner := Slot.owner b.num_buckets_per_player s
    num_beads := b.num_beads s }

/-- Effect of `bucket.add_bead()` applied to the bucket at a slot, writing the updated
count back into the board state. -/
def MancalaBoard.add_bead (b : MancalaBoard) (s : Slot) : MancalaBoard :=
  b.set_num_beads s (b.num_beads s + 1)

/-- Effect of `bucket.get_beads()` applied to the bucket at a slot: the returned count
together with the board afterwards (unchanged when the call raises). -/
def MancalaBoard.take_all (b : MancalaBoard) (s : Slot) :
    (Except MancalaError Nat) × MancalaBoard :=
  match (b.bucket s).get_beads with
  | Except.error e => (Except.error e, b)
  | Except.ok (n, bk) => (Except.ok n, b.set_num_beads s bk.num_beads)

/-- Effect of `bucket.add_beads(n)` applied to the bucket at a slot: the outcome
together with the board afterwards (unchanged when the call raises). -/
def MancalaBoard.add_beads_at (b : MancalaBoard) (s : Slot) (n : Int) :
    (Except MancalaError Unit) × MancalaBoard :=
  match (b.bucket s).add_beads n with
  | Except.error e => (Except.error e, b)
  | Except.ok bk => (Except.ok (), b.set_num_beads s bk.num_beads)

/-- The `opposite_map` dict built at the end of `__init__` (lines 120–124):
iterating over the non-scoring buckets (which are exactly `self.buckets`,
pit `i` at position `i`), it maps key `bucket.number = i` to
`non_scoring_buckets[(2*num_buckets_per_player-1) - i]`, the pit with number
`2*nbpp - 1 - i`. -/
def opposite_map (nbpp : Nat) : List (Int × Slot) :=
  ((List.range (2 * nbpp)).map Int.ofNat).map
    (fun number => (number, Slot.pit (2 * nbpp - 1 - number.toNat)))

/-- Embedding of `MancalaBoard.get_opposite` (lines 152–154): dict lookup in
`opposite_map`; `none` is Python's `KeyError` for a key that is not the
number of a non-scoring pit. -/
def get_opposite (nbpp : Nat) (bucket_number : Int) : Option Slot :=
  (opposite_map nbpp).lookup bucket_number

/-- Embedding of `MancalaBoard.get_buckets_for_player` (lines 156–159): the bead counts
of the non-scoring buckets owned by a player, in board order.
`self.buckets` holds exactly the non-scoring pits, pit `i` at position `i`,
so the comprehension filters positions by the `owner` attribute. -/
def MancalaBoard.get_buckets_for_player (b : MancalaBoard) (player : Nat) :
    List Nat :=
  ((List.range b.pits.length).filter
      (fun i => Slot.owner b.num_buckets_per_player (Slot.pit i) == player)).map
    (fun i => b.pits.getD i 0)

/-- Embedding of `MancalaBoard.check_victory` (lines 161–165): true iff player 1's pits
sum to zero or player 2's pits sum to zero. -/
def MancalaBoard.check_victory (b : MancalaBoard) : Bool :=
  ((b.get_buckets_for_player 1).sum == 0) || ((b.get_buckets_for_player 2).sum == 0)

/-- Embedding of `MancalaBoard.player_ahead` (lines 167–173): 1 if player 1's scoring
bucket is strictly ahead, 2 if player 2's is, 0 on a tie. -/
def MancalaBoard.player_ahead (b : MancalaBoard) : Nat :=
  if b.p2_scoring_bucket < b.p1_scoring_bucket then 1
  else if b.p1_scoring_bucket < b.p2_scoring_bucket then 2
  else 0

/-- The sowing loop of `move` (lines 134–139): with `beads` beads left in
hand and `bucket` the slot of the previous placement (initially the source
pit), repeatedly step to the next deposit target (`nextTarget`, which skips
the opponent's scoring bucket), place one bead there and recurse;
returns the board and the slot holding the last placed bead.  `none` is a
crash on a `None` link. -/
def sowAux (nbpp player : Nat) : Nat → Slot → MancalaBoard →
    Option (MancalaBoard × Slot)
  | 0, bucket, board => some (board, bucket)
  | beads + 1, bucket, board =>
    match nextTarget nbpp player bucket with
    | none => none
    | some t => sowAux nbpp player beads t (board.add_bead t)

/-- The sequence of slots that receive a bead during the sowing loop, in
placement order (empty tail on a crashed link). -/
def sowTrace (nbpp player : Nat) : Nat → Slot → List Slot
  | 0, _ => []
  | beads + 1, bucket =>
    match nextTarget nbpp player bucket with
    | none => []
    | some t => t :: sowTrace nbpp player beads t

/-- The turn resolution after the sowing loop (lines 140–150): an extra
turn (return `True`) when the last bead landed in a scoring bucket (always
the mover's own, since the opponent's is skipped); otherwise, when the last
bead landed in the mover's own pit and that pit now holds exactly one bead,
a capture: look up the opposite pit, and if it is non-empty take all of its
beads (`opposite.get_beads()`) and add them to the mover's scoring bucket —
the landing pit itself is not touched.  Return `False`.  `none` is a
`KeyError` on the opposite-map lookup. -/
def moveResolution (board : MancalaBoard) (bucket : Slot) (player : Nat) :
    Option ((Except MancalaError Bool) × MancalaBoard) :=
  if bucket.scoring then some (Except.ok true, board)
  else if Slot.owner board.num_buckets_per_player bucket = player
      ∧ board.num_beads bucket = 1 then
    match get_opposite board.num_buckets_per_player bucket.number with
    | none => none
    | some opposite =>
      if board.num_beads opposite ≠ 0 then
        let board1 :=
          if player = 1 then
            (board.set_num_beads opposite 0).set_num_beads Slot.p1_scoring
              (board.p1_scoring_bucket + board.num_beads opposite)
          else board
        let board2 :=
          if player = 2 then
            (board1.set_num_beads opposite 0).set_num_beads Slot.p2_scoring
              (board1.p2_scoring_bucket + board1.num_beads opposite)
          else board1
        some (Except.ok false, board2)
      else some (Except.ok false, board)
  else some (Except.ok false, board)

/-- Embedding of `MancalaBoard.move` (lines 126–150).  `self.buckets[bucket_index]` is
the pit at that position (out-of-range is Python's `IndexError`, `none`;
negative wrap-around indices are not modelled).  `bucket.get_beads()`
empties the pit and returns its count; `MoveError` (raised with no message)
when that count is zero; otherwise the sowing loop runs and the turn is
resolved by `moveResolution`. -/
def MancalaBoard.move (self : MancalaBoard) (bucket_index : Nat)
    (player : Nat) : Option ((Except MancalaError Bool) × MancalaBoard) :=
  if bucket_index < self.pits.length then
    let beads := self.pits.getD bucket_index 0
    let zeroed : MancalaBoard := { self with pits := self.pits.set bucket_index 0 }
    if beads = 0 then some (Except.error (MancalaError.MoveError none), zeroed)
    else
      match sowAux self.num_buckets_per_player player beads
          (Slot.pit bucket_index) zeroed with
      | none => none
      | some (board, bucket) => moveResolution board bucket player
  else none

/-- The board state after a `move(bucket_index, player)` call, whether it
returns, raises (`MoveError` leaves the already-zero pit zeroed), or
crashes (no state recorded past the crash: the pre-call state). -/
def applyMove (b : MancalaBoard) (m : Nat × Nat) : MancalaBoard :=
  match b.move m.1 m.2 with
  | some (_, b') => b'
  | none => b

/-- The board state after a sequence of `move` calls. -/
def applyMoves (b : MancalaBoard) (moves : List (Nat × Nat)) : MancalaBoard :=
  moves.foldl applyMove b

/-- The engine operations that mutate bead counts: `move`, and the
`MancalaBucket` methods `get_beads` (a take-all) and `add_beads` applied to
the bucket at a slot. -/
inductive EngineOp where
  | move (bucket_index : Nat) (player : Nat)
  | take_all (s : Slot)
  | add_beads (s : Slot) (n : Int)

/-- The board state after one engine operation. -/
def applyOp (b : MancalaBoard) : EngineOp → MancalaBoard
  | .move i p => applyMove b (i, p)
  | .take_all s => (b.take_all s).2
  | .add_beads s n => (b.add_beads_at s n).2

/-- The board state after a sequence of engine operations. -/
def applyOps (b : MancalaBoard) (ops : List EngineOp) : MancalaBoard :=
  ops.foldl applyOp b

/-- The sum of the bead counts of all `2*nbpp + 2` buckets. -/
def MancalaBoard.total (b : MancalaBoard) : Nat :=
  b.pits.sum + b.p1_scoring_bucket + b.p2_scoring_bucket

/-- Structural well-formedness of a board state: the pit-count list has one
entry per non-scoring bucket.  Every state reached from the constructor
satisfies it (the engine never changes the list length). -/
def MancalaBoard.Wf (b : MancalaBoard) : Prop :=
  b.pits.length = 2 * b.num_buckets_per_player

/-- A slot that exists on a board with `nbpp` pits per player: a pit with
index below `2*nbpp`, or a scoring bucket. -/
def InRange (nbpp : Nat) (s : Slot) : Prop :=
  ∀ i, s = Slot.pit i → i < 2 * nbpp

/-- The acting player's own scoring bucket (for players 1 and 2). -/
def own_scoring (player : Nat) : Slot :=
  if player = 1 then Slot.p1_scoring else Slot.p2_scoring

/-- The opponent's scoring bucket (for players 1 and 2). -/
def opponent_scoring (player : Nat) : Slot :=
  if player = 1 then Slot.p2_scoring else Slot.p1_scoring

/-- The `next_bucket` link as a total step function, standing still on the
unlinked slot (`p2_scoring`, whose link is `None`): used to state facts
about the link cycle. -/
def nextD (nbpp : Nat) (s : Slot) : Slot :=
  (Slot.next_bucket nbpp s).getD s

/-- Closed form of `nextTarget` (proved equal in `nextTarget_closed`): from
pit `2*nbpp - 1` the step reaches player 1's scoring bucket, which is the
deposit target for player 1 and is skipped (continuing to pit 0) for anyone
else; from any other pit the step reaches the following pit; from
`p1_scoring` it reaches pit 0; `p2_scoring` has no link. -/
def nextTargetC (nbpp player : Nat) : Slot → Option Slot
  | .pit i =>
    if i + 1 = 2 * nbpp then
      if player = 1 then some Slot.p1_scoring else some (Slot.pit 0)
    else some (Slot.pit (i + 1))
  | .p1_scoring => some (Slot.pit 0)
  | .p2_scoring => none

/-- Position of a slot in the mover's deposit cycle, in deposit order:
pit `i` at position `i`, player 1's scoring bucket (a deposit target only
for player 1) after the last pit.  Used to show that deposit targets within
one revolution are pairwise distinct. -/
def sowPos (nbpp : Nat) : Slot → Nat
  | .pit i => i
  | .p1_scoring => 2 * nbpp
  | .p2_scoring => 2 * nbpp + 1

/-- Length of the mover's deposit cycle: for player 1 all `2*nbpp` pits
plus their own scoring bucket; for anyone else the `2*nbpp` pits only
(player 1's scoring bucket is skipped, and player 2's is not linked). -/
def sowPeriod (nbpp player : Nat) : Nat :=
  if player = 1 then 2 * nbpp + 1 else 2 * nbpp

/-- The slots a sowing pass for `player` can stand on: existing pits, plus
player 1's scoring bucket when player 1 is the mover. -/
def Eligible (nbpp player : Nat) (s : Slot) : Prop :=
  InRange nbpp s ∧ s ≠ Slot.p2_scoring ∧ (player ≠ 1 → s ≠ Slot.p1_scoring)

end Mancala

namespace Mancala

theorem add_beads_one (self : MancalaBucket) :
    self.add_beads 1 = Except.ok self.add_bead := rfl

theorem board_add_bead_agree (b : MancalaBoard) (s : Slot) :
    b.add_bead s = b.set_num_beads s ((b.bucket s).add_bead.num_beads) := rfl

theorem scoring_iff (s : Slot) :
    s.scoring = true ↔ s = Slot.p1_scoring ∨ s = Slot.p2_scoring := by
  cases s <;> simp [Slot.scoring]

theorem inRange_pit (nbpp j : Nat) :
    InRange nbpp (Slot.pit j) ↔ j < 2 * nbpp := by
  constructor
  · intro h; exact h j rfl
  · intro h i hi
    rw [show i = j from (Slot.pit.injEq ..).mp hi.symm]
    exact h

theorem inRange_p1 (nbpp : Nat) : InRange nbpp Slot.p1_scoring := by
  intro i h; exact Slot.noConfusion h

theorem nextTarget_eq_none (nbpp player : Nat) (s : Slot)
    (h : Slot.next_bucket nbpp s = none) : nextTarget nbpp player s = none := by
  rw [nextTarget, h]

theorem nextTarget_not_skip (nbpp player : Nat) (s t : Slot)
    (h : Slot.next_bucket nbpp s = some t) (hs : skip nbpp player t = false) :
    nextTarget nbpp player s = some t := by
  rw [nextTarget, h]
  simp [hs]

theorem nextTarget_of_skip (nbpp player : Nat) (s t : Slot)
    (h : Slot.next_bucket nbpp s = some t) (hs : skip nbpp player t = true) :
    nextTarget nbpp player s = nextTarget nbpp player t := by
  rw [nextTarget, h]
  simp [hs]

theorem skip_pit (nbpp player i : Nat) :
    skip nbpp player (Slot.pit i) = false := by
  simp [skip, Slot.scoring]

theorem nextTarget_closed (nbpp player : Nat) (s : Slot) :
    nextTarget nbpp player s = nextTargetC nbpp player s := by
  cases s with
  | pit i =>
    by_cases h2 : i + 1 = 2 * nbpp
    · by_cases hp : player = 1
      · rw [nextTarget_not_skip nbpp player (Slot.pit i) Slot.p1_scoring
          (by simp [Slot.next_bucket, h2])
          (by simp [skip, Slot.scoring, Slot.owner, hp])]
        simp [nextTargetC, h2, hp]
      · rw [nextTarget_of_skip nbpp player (Slot.pit i) Slot.p1_scoring
          (by simp [Slot.next_bucket, h2])
          (by simp [skip, Slot.scoring, Slot.owner]; omega)]
        rw [nextTarget_not_skip nbpp player Slot.p1_scoring (Slot.pit 0)
          (by simp [Slot.next_bucket]) (skip_pit ..)]
        simp [nextTargetC, h2, hp]
    · rw [nextTarget_not_skip nbpp player (Slot.pit i) (Slot.pit (i + 1))
        (by simp [Slot.next_bucket, h2]) (skip_pit ..)]
      simp [nextTargetC, h2]
  | p1_scoring =>
    rw [nextTarget_not_skip nbpp player Slot.p1_scoring (Slot.pit 0)
      (by simp [Slot.next_bucket]) (skip_pit ..)]
    simp [nextTargetC]
  | p2_scoring =>
    rw [nextTarget_eq_none nbpp player Slot.p2_scoring (by simp [Slot.next_bucket])]
    simp [nextTargetC]

theorem nextTarget_spec (nbpp player : Nat) (s : Slot)
    (hs : s ≠ Slot.p2_scoring) :
    ∃ t, nextTarget nbpp player s = some t ∧ skip nbpp player t = false ∧
      t ≠ Slot.p2_scoring := by
  rw [nextTarget_closed]
  cases s with
  | pit i =>
    by_cases h2 : i + 1 = 2 * nbpp <;> by_cases hp : player = 1 <;>
      simp [nextTargetC, h2, hp, skip, Slot.scoring, Slot.owner]
  | p1_scoring => simp [nextTargetC, skip_pit]
  | p2_scoring => exact absurd rfl hs

theorem getD_set_self (l : List Nat) (i a : Nat) (h : i < l.length) :
    (l.set i a).getD i 0 = a := by
  induction l generalizing i with
  | nil => simp at h
  | cons hd tl ih =>
    cases i with
    | zero => rfl
    | succ n => simpa using ih n (by simpa using h)

theorem getD_set_ne (l : List Nat) (i j a : Nat) (h : i ≠ j) :
    (l.set i a).getD j 0 = l.getD j 0 := by
  induction l generalizing i j with
  | nil => simp
  | cons hd tl ih =>
    cases i with
    | zero => cases j with
      | zero => exact absurd rfl h
      | succ m => rfl
    | succ n => cases j with
      | zero => rfl
      | succ m => simpa using ih n m (by omega)

theorem sum_set_add (l : List Nat) (i a : Nat) (h : i < l.length) :
    (l.set i a).sum + l.getD i 0 = l.sum + a := by
  induction l generalizing i with
  | nil => simp at h
  | cons hd tl ih =>
    cases i with
    | zero => simp [List.sum_cons]; omega
    | succ n =>
      have := ih n (by simpa using h)
      simp only [List.set_cons_succ, List.sum_cons, List.getD_cons_succ]
      omega

theorem set_zero_of_getD_zero (l : List Nat) (i : Nat) (h : l.getD i 0 = 0) :
    l.set i 0 = l := by
  induction l generalizing i with
  | nil => rfl
  | cons hd tl ih =>
    cases i with
    | zero => simp_all
    | succ n => simp_all

theorem nextTarget_range (nbpp player : Nat) (hn : 1 ≤ nbpp) (s t : Slot)
    (hs : InRange nbpp s) (ht : nextTarget nbpp player s = some t) :
    InRange nbpp t := by
  rw [nextTarget_closed] at ht
  cases s with
  | pit i =>
    have hi : i < 2 * nbpp := (inRange_pit ..).mp hs
    by_cases h2 : i + 1 = 2 * nbpp
    · by_cases hp : player = 1 <;> simp [nextTargetC, h2, hp] at ht <;> subst ht
      · exact inRange_p1 nbpp
      · exact (inRange_pit ..).mpr (by omega)
    · simp [nextTargetC, h2] at ht
      subst ht
      exact (inRange_pit ..).mpr (by omega)
  | p1_scoring =>
    simp [nextTargetC] at ht
    subst ht
    exact (inRange_pit ..).mpr (by omega)
  | p2_scoring => simp [nextTargetC] at ht

theorem add_bead_nbpp (b : MancalaBoard) (s : Slot) :
    (b.add_bead s).num_buckets_per_player = b.num_buckets_per_player := by
  cases s <;> rfl

theorem add_bead_length (b : MancalaBoard) (s : Slot) :
    (b.add_bead s).pits.length = b.pits.length := by
  cases s <;>
    simp [MancalaBoard.add_bead, MancalaBoard.set_num_beads]

theorem num_beads_add_bead_self (b : MancalaBoard) (s : Slot)
    (hs : ∀ i, s = Slot.pit i → i < b.pits.length) :
    (b.add_bead s).num_beads s = b.num_beads s + 1 := by
  cases s with
  | pit i =>
    simp only [MancalaBoard.add_bead, MancalaBoard.set_num_beads, MancalaBoard.num_beads]
    exact getD_set_self _ _ _ (hs i rfl)
  | p1_scoring => rfl
  | p2_scoring => rfl

theorem num_beads_add_bead_ne (b : MancalaBoard) (s x : Slot) (hx : x ≠ s) :
    (b.add_bead s).num_beads x = b.num_beads x := by
  cases s with
  | pit i =>
    cases x with
    | pit j =>
      simp only [MancalaBoard.add_bead, MancalaBoard.set_num_beads, MancalaBoard.num_beads]
      exact getD_set_ne _ _ _ _ (fun hij => hx (by rw [hij]))
    | p1_scoring => rfl
    | p2_scoring => rfl
  | p1_scoring => cases x <;> first | rfl | exact absurd rfl hx
  | p2_scoring => cases x <;> first | rfl | exact absurd rfl hx

theorem num_beads_add_bead_le (b : MancalaBoard) (s x : Slot) :
    b.num_beads x ≤ (b.add_bead s).num_beads x := by
  by_cases hx : x = s
  · subst hx
    cases x with
    | pit i =>
      by_cases hi : i < b.pits.length
      · rw [num_beads_add_bead_self b _ (by simp_all)]
        omega
      · have hset : b.pits.set i (b.pits.getD i 0 + 1) = b.pits :=
          List.set_eq_of_length_le (by omega)
        simp only [MancalaBoard.add_bead, MancalaBoard.set_num_beads,
          MancalaBoard.num_beads, hset]
        exact le_refl _
    | p1_scoring => exact Nat.le_succ _
    | p2_scoring => exact Nat.le_succ _
  · rw [num_beads_add_bead_ne b s x hx]

theorem total_add_bead (b : MancalaBoard) (s : Slot)
    (hs : ∀ i, s = Slot.pit i → i < b.pits.length) :
    (b.add_bead s).total = b.total + 1 := by
  cases s with
  | pit i =>
    have := sum_set_add b.pits i (b.pits.getD i 0 + 1) (hs i rfl)
    simp only [MancalaBoard.add_bead, MancalaBoard.set_num_beads, MancalaBoard.num_beads,
      MancalaBoard.total]
    omega
  | p1_scoring => simp [MancalaBoard.add_bead, MancalaBoard.set_num_beads,
      MancalaBoard.num_beads, MancalaBoard.total]; omega
  | p2_scoring => simp [MancalaBoard.add_bead, MancalaBoard.set_num_beads,
      MancalaBoard.num_beads, MancalaBoard.total]; omega

theorem foldl_add_bead_nbpp (L : List Slot) :
    ∀ b : MancalaBoard,
      (L.foldl MancalaBoard.add_bead b).num_buckets_per_player =
        b.num_buckets_per_player := by
  induction L with
  | nil => intro b; rfl
  | cons t tr ih => intro b; rw [List.foldl_cons, ih, add_bead_nbpp]

theorem foldl_add_bead_length (L : List Slot) :
    ∀ b : MancalaBoard,
      (L.foldl MancalaBoard.add_bead b).pits.length = b.pits.length := by
  induction L with
  | nil => intro b; rfl
  | cons t tr ih => intro b; rw [List.foldl_cons, ih, add_bead_length]

theorem num_beads_foldl (L : List Slot) (x : Slot) :
    ∀ b : MancalaBoard, (∀ t ∈ L, ∀ i, t = Slot.pit i → i < b.pits.length) →
      (L.foldl MancalaBoard.add_bead b).num_beads x =
        b.num_beads x + L.count x := by
  induction L with
  | nil => intro b _; simp
  | cons t tr ih =>
    intro b hok
    rw [List.foldl_cons, ih (b.add_bead t)
      (fun u hu i hi => by
        rw [add_bead_length]; exact hok u (by simp [hu]) i hi)]
    rw [List.count_cons]
    by_cases hx : x = t
    · subst hx
      rw [num_beads_add_bead_self b x (hok x (by simp))]
      simp
      omega
    · rw [num_beads_add_bead_ne b t x hx]
      have hbeq : (x == t) = false := by simp [hx]
      simp [hbeq]
      exact fun h => hx h.symm

theorem num_beads_foldl_le (L : List Slot) (x : Slot) :
    ∀ b : MancalaBoard,
      b.num_beads x ≤ (L.foldl MancalaBoard.add_bead b).num_beads x := by
  induction L with
  | nil => intro b; simp
  | cons t tr ih =>
    intro b
    rw [List.foldl_cons]
    exact le_trans (num_beads_add_bead_le b t x) (ih (b.add_bead t))

theorem total_foldl (L : List Slot) :
    ∀ b : MancalaBoard, (∀ t ∈ L, ∀ i, t = Slot.pit i → i < b.pits.length) →
      (L.foldl MancalaBoard.add_bead b).total = b.total + L.length := by
  induction L with
  | nil => intro b _; simp
  | cons t tr ih =>
    intro b hok
    rw [List.foldl_cons, ih (b.add_bead t)
      (fun u hu i hi => by
        rw [add_bead_length]; exact hok u (by simp [hu]) i hi)]
    rw [total_add_bead b t (hok t (by simp))]
    simp only [List.length_cons]
    omega

theorem sowAux_spec (nbpp player : Nat) :
    ∀ (beads : Nat) (s : Slot) (b : MancalaBoard), s ≠ Slot.p2_scoring →
      sowAux nbpp player beads s b =
        some ((sowTrace nbpp player beads s).foldl MancalaBoard.add_bead b,
          (sowTrace nbpp player beads s).getLastD s) ∧
      (sowTrace nbpp player beads s).length = beads ∧
      (∀ x ∈ sowTrace nbpp player beads s,
        skip nbpp player x = false ∧ x ≠ Slot.p2_scoring) := by
  intro beads
  induction beads with
  | zero => intro s b _; simp [sowAux, sowTrace]
  | succ n ih =>
    intro s b hs
    obtain ⟨t, ht, hskip, htp⟩ := nextTarget_spec nbpp player s hs
    obtain ⟨ih1, ih2, ih3⟩ := ih t (b.add_bead t) htp
    have htr : sowTrace nbpp player (n + 1) s = t :: sowTrace nbpp player n t := by
      simp [sowTrace, ht]
    refine ⟨?_, ?_, ?_⟩
    · rw [show sowAux nbpp player (n + 1) s b =
          sowAux nbpp player n t (b.add_bead t) by simp [sowAux, ht]]
      rw [htr, List.foldl_cons, List.getLastD_cons]
      exact ih1
    · rw [htr]
      simp [ih2]
    · rw [htr]
      intro x hx
      rcases List.mem_cons.mp hx with hx | hx
      · subst hx; exact ⟨hskip, htp⟩
      · exact ih3 x hx

theorem sowTrace_range (nbpp player : Nat) (hn : 1 ≤ nbpp) :
    ∀ (beads : Nat) (s : Slot), s ≠ Slot.p2_scoring → InRange nbpp s →
      ∀ x ∈ sowTrace nbpp player beads s, InRange nbpp x := by
  intro beads
  induction beads with
  | zero => intro s _ _ x hx; simp [sowTrace] at hx
  | succ n ih =>
    intro s hs hr x hx
    obtain ⟨t, ht, _, htp⟩ := nextTarget_spec nbpp player s hs
    rw [show sowTrace nbpp player (n + 1) s = t :: sowTrace nbpp player n t by
        simp [sowTrace, ht]] at hx
    have htr : InRange nbpp t := nextTarget_range nbpp player hn s t hr ht
    rcases List.mem_cons.mp hx with hx | hx
    · subst hx; exact htr
    · exact ih t htp htr x hx

theorem lookup_graph_none {α β : Type _} [BEq α] [LawfulBEq α]
    (f : α → β) (as : List α) (k : α) (hk : k ∉ as) :
    (as.map (fun x => (x, f x))).lookup k = none := by
  induction as with
  | nil => simp
  | cons a tl ih =>
    have hka : (k == a) = false := by
      simp only [beq_eq_false_iff_ne, ne_eq]
      intro h; exact hk (by simp [h])
    simp only [List.map_cons, List.lookup_cons, hka]
    exact ih (fun h => hk (by simp [h]))

theorem lookup_graph_some {α β : Type _} [BEq α] [LawfulBEq α]
    (f : α → β) (as : List α) (k : α) (v : β)
    (h : (as.map (fun x => (x, f x))).lookup k = some v) :
    k ∈ as ∧ v = f k := by
  induction as with
  | nil => simp at h
  | cons a tl ih =>
    rw [List.map_cons, List.lookup_cons] at h
    by_cases hka : (k == a) = true
    · have hk : k = a := by simpa using hka
      rw [hka] at h
      refine ⟨by simp [hk], ?_⟩
      cases h
      rw [hk]
    · rw [Bool.not_eq_true] at hka
      rw [hka] at h
      obtain ⟨h1, h2⟩ := ih h
      exact ⟨by simp [h1], h2⟩

theorem get_opposite_eq (nbpp m : Nat) (hm : m < 2 * nbpp) :
    get_opposite nbpp (Int.ofNat m) = some (Slot.pit (2 * nbpp - 1 - m)) := by
  unfold get_opposite opposite_map
  rw [List.lookup_graph (fun number : Int => Slot.pit (2 * nbpp - 1 - number.toNat))
    (List.mem_map_of_mem Int.ofNat (List.mem_range.mpr hm))]
  simp

theorem get_opposite_some (nbpp : Nat) (k : Int) (s : Slot)
    (h : get_opposite nbpp k = some s) :
    ∃ m : Nat, k = Int.ofNat m ∧ m < 2 * nbpp ∧
      s = Slot.pit (2 * nbpp - 1 - m) := by
  unfold get_opposite opposite_map at h
  obtain ⟨hmem, hv⟩ := lookup_graph_some _ _ _ _ h
  simp only [List.mem_map, List.mem_range] at hmem
  obtain ⟨m, hm, hk⟩ := hmem
  exact ⟨m, hk.symm, hm, by rw [hv, ← hk]; simp⟩

theorem get_opposite_none (nbpp : Nat) (k : Int)
    (hk : k < 0 ∨ (2 * nbpp : Int) ≤ k) : get_opposite nbpp k = none := by
  unfold get_opposite opposite_map
  apply lookup_graph_none
  simp only [List.mem_map, List.mem_range, not_exists]
  intro m
  intro hcon
  obtain ⟨hm, hk2⟩ := hcon
  have hk3 : ((m : Nat) : Int) = k := hk2
  omega

theorem set_num_beads_nbpp (b : MancalaBoard) (s : Slot) (n : Nat) :
    (b.set_num_beads s n).num_buckets_per_player = b.num_buckets_per_player := by
  cases s <;> rfl

theorem set_num_beads_length (b : MancalaBoard) (s : Slot) (n : Nat) :
    (b.set_num_beads s n).pits.length = b.pits.length := by
  cases s <;> simp [MancalaBoard.set_num_beads]

theorem num_beads_set_self (b : MancalaBoard) (s : Slot) (n : Nat)
    (hs : ∀ i, s = Slot.pit i → i < b.pits.length) :
    (b.set_num_beads s n).num_beads s = n := by
  cases s with
  | pit i =>
    simp only [MancalaBoard.set_num_beads, MancalaBoard.num_beads]
    exact getD_set_self _ _ _ (hs i rfl)
  | p1_scoring => rfl
  | p2_scoring => rfl

theorem num_beads_set_ne (b : MancalaBoard) (s x : Slot) (n : Nat) (hx : x ≠ s) :
    (b.set_num_beads s n).num_beads x = b.num_beads x := by
  cases s with
  | pit i =>
    cases x with
    | pit j =>
      simp only [MancalaBoard.set_num_beads, MancalaBoard.num_beads]
      exact getD_set_ne _ _ _ _ (fun hij => hx (by rw [hij]))
    | p1_scoring => rfl
    | p2_scoring => rfl
  | p1_scoring => cases x <;> first | rfl | exact absurd rfl hx
  | p2_scoring => cases x <;> first | rfl | exact absurd rfl hx

theorem total_set_pit (b : MancalaBoard) (i n : Nat) (hi : i < b.pits.length) :
    (b.set_num_beads (Slot.pit i) n).total + b.pits.getD i 0 = b.total + n := by
  have := sum_set_add b.pits i n hi
  simp only [MancalaBoard.set_num_beads, MancalaBoard.total]
  omega

theorem total_set_p1 (b : MancalaBoard) (n : Nat) :
    (b.set_num_beads Slot.p1_scoring n).total + b.p1_scoring_bucket =
      b.total + n := by
  simp only [MancalaBoard.set_num_beads, MancalaBoard.total]
  omega

theorem total_set_p2 (b : MancalaBoard) (n : Nat) :
    (b.set_num_beads Slot.p2_scoring n).total + b.p2_scoring_bucket =
      b.total + n := by
  simp only [MancalaBoard.set_num_beads, MancalaBoard.total]
  omega

theorem get_opposite_none_big (nbpp m : Nat) (hm : 2 * nbpp ≤ m) :
    get_opposite nbpp (Int.ofNat m) = none := by
  apply get_opposite_none
  right
  show (2 * (nbpp : Int)) ≤ (m : Int)
  exact_mod_cast hm

theorem move_empty (b : MancalaBoard) (i p : Nat) (hi : i < b.pits.length)
    (h0 : b.pits.getD i 0 = 0) :
    b.move i p = some (Except.error (MancalaError.MoveError none), b) := by
  have hz : b.pits.set i 0 = b.pits := set_zero_of_getD_zero _ _ h0
  simp only [MancalaBoard.move]
  rw [if_pos hi, if_pos h0, hz]

theorem move_out_of_range (b : MancalaBoard) (i p : Nat)
    (hi : ¬ i < b.pits.length) : b.move i p = none := by
  simp [MancalaBoard.move, hi]

theorem move_nonempty (b : MancalaBoard) (i p : Nat) (hi : i < b.pits.length)
    (h0 : b.pits.getD i 0 ≠ 0) :
    b.move i p =
      moveResolution
        ((sowTrace b.num_buckets_per_player p (b.pits.getD i 0) (Slot.pit i)).foldl
          MancalaBoard.add_bead { b with pits := b.pits.set i 0 })
        ((sowTrace b.num_buckets_per_player p (b.pits.getD i 0) (Slot.pit i)).getLastD
          (Slot.pit i)) p := by
  have hsow := (sowAux_spec b.num_buckets_per_player p (b.pits.getD i 0)
    (Slot.pit i) { b with pits := b.pits.set i 0 } (by simp)).1
  simp only [MancalaBoard.move]
  rw [if_pos hi, if_neg h0, hsow]

theorem moveResolution_scoring (board : MancalaBoard) (bucket : Slot)
    (player : Nat) (h : bucket.scoring = true) :
    moveResolution board bucket player = some (Except.ok true, board) := by
  unfold moveResolution
  rw [if_pos h]

theorem moveResolution_no_capture (board : MancalaBoard) (bucket : Slot)
    (player : Nat) (h : bucket.scoring = false)
    (hc : ¬(Slot.owner board.num_buckets_per_player bucket = player ∧
        board.num_beads bucket = 1)) :
    moveResolution board bucket player = some (Except.ok false, board) := by
  unfold moveResolution
  rw [if_neg (by simp [h]), if_neg hc]

theorem moveResolution_capture_empty (board : MancalaBoard) (m player : Nat)
    (hown : Slot.owner board.num_buckets_per_player (Slot.pit m) = player)
    (h1 : board.num_beads (Slot.pit m) = 1)
    (hm : m < 2 * board.num_buckets_per_player)
    (hc : board.num_beads
      (Slot.pit (2 * board.num_buckets_per_player - 1 - m)) = 0) :
    moveResolution board (Slot.pit m) player =
      some (Except.ok false, board) := by
  unfold moveResolution
  rw [if_neg (by simp [Slot.scoring]), if_pos ⟨hown, h1⟩]
  rw [show (Slot.pit m).number = Int.ofNat m from rfl, get_opposite_eq _ m hm]
  simp [hc]

theorem moveResolution_capture (board : MancalaBoard) (m player : Nat)
    (hp : player = 1 ∨ player = 2)
    (hown : Slot.owner board.num_buckets_per_player (Slot.pit m) = player)
    (h1 : board.num_beads (Slot.pit m) = 1)
    (hm : m < 2 * board.num_buckets_per_player)
    (hc : board.num_beads
      (Slot.pit (2 * board.num_buckets_per_player - 1 - m)) ≠ 0) :
    moveResolution board (Slot.pit m) player =
      some (Except.ok false,
        (board.set_num_beads
            (Slot.pit (2 * board.num_buckets_per_player - 1 - m)) 0).set_num_beads
          (own_scoring player)
          (board.num_beads (own_scoring player) +
            board.num_beads
              (Slot.pit (2 * board.num_buckets_per_player - 1 - m)))) := by
  unfold moveResolution
  rw [if_neg (by simp [Slot.scoring]), if_pos ⟨hown, h1⟩]
  rw [show (Slot.pit m).number = Int.ofNat m from rfl, get_opposite_eq _ m hm]
  rcases hp with hp | hp <;> subst hp <;>
    simp [own_scoring, MancalaBoard.num_beads] <;>
    intro hzero <;>
    exact absurd (by simpa [MancalaBoard.num_beads] using hzero) hc

theorem moveResolution_spec (board : MancalaBoard) (bucket : Slot)
    (player : Nat) (r : Except MancalaError Bool) (b' : MancalaBoard)
    (h : moveResolution board bucket player = some (r, b')) :
    r = Except.ok bucket.scoring ∧
    (b' = board ∨
      ∃ m, bucket = Slot.pit m ∧ m < 2 * board.num_buckets_per_player ∧
        board.num_beads (Slot.pit (2 * board.num_buckets_per_player - 1 - m)) ≠ 0 ∧
        (player = 1 ∨ player = 2) ∧
        b' = (board.set_num_beads
            (Slot.pit (2 * board.num_buckets_per_player - 1 - m)) 0).set_num_beads
          (own_scoring player)
          (board.num_beads (own_scoring player) +
            board.num_beads
              (Slot.pit (2 * board.num_buckets_per_player - 1 - m)))) := by
  by_cases hsc : bucket.scoring = true
  · rw [moveResolution_scoring board bucket player hsc] at h
    cases h
    exact ⟨by rw [hsc], Or.inl rfl⟩
  · rw [Bool.not_eq_true] at hsc
    by_cases hcond : Slot.owner board.num_buckets_per_player bucket = player ∧
        board.num_beads bucket = 1
    · obtain ⟨m, hbm⟩ : ∃ m, bucket = Slot.pit m := by
        cases bucket with
        | pit i => exact ⟨i, rfl⟩
        | p1_scoring => simp [Slot.scoring] at hsc
        | p2_scoring => simp [Slot.scoring] at hsc
      subst hbm
      have hp : player = 1 ∨ player = 2 := by
        rcases hcond with ⟨hown, _⟩
        rw [← hown]
        simp only [Slot.owner]
        by_cases hio : m < board.num_buckets_per_player <;> simp [hio]
      have hm : m < 2 * board.num_buckets_per_player := by
        by_contra hcon
        unfold moveResolution at h
        rw [if_neg (by simp [Slot.scoring]), if_pos hcond] at h
        rw [show (Slot.pit m).number = Int.ofNat m from rfl] at h
        rw [get_opposite_none_big _ _ (by omega)] at h
        cases h
      by_cases hc : board.num_beads
          (Slot.pit (2 * board.num_buckets_per_player - 1 - m)) = 0
      · rw [moveResolution_capture_empty board m player hcond.1 hcond.2 hm hc] at h
        cases h
        exact ⟨by rw [hsc], Or.inl rfl⟩
      · rw [moveResolution_capture board m player hp hcond.1 hcond.2 hm hc] at h
        cases h
        exact ⟨by rw [hsc], Or.inr ⟨m, rfl, hm, hc, hp, rfl⟩⟩
    · rw [moveResolution_no_capture board bucket player hsc hcond] at h
      cases h
      exact ⟨by rw [hsc], Or.inl rfl⟩

theorem getLastD_mem {α : Type _} (l : List α) (d : α) (h : l ≠ []) :
    l.getLastD d ∈ l := by
  induction l generalizing d with
  | nil => exact absurd rfl h
  | cons a tl ih =>
    rw [List.getLastD_cons]
    cases tl with
    | nil => simp
    | cons c cs => exact List.mem_cons_of_mem a (ih a (by simp))

theorem move_some (b : MancalaBoard) (i p : Nat)
    (r : Except MancalaError Bool) (b' : MancalaBoard)
    (h : b.move i p = some (r, b')) :
    i < b.pits.length ∧
    ((b.pits.getD i 0 = 0 ∧ r = Except.error (MancalaError.MoveError none) ∧
        b' = b) ∨
      (b.pits.getD i 0 ≠ 0 ∧
        moveResolution
          ((sowTrace b.num_buckets_per_player p (b.pits.getD i 0)
              (Slot.pit i)).foldl MancalaBoard.add_bead
            { b with pits := b.pits.set i 0 })
          ((sowTrace b.num_buckets_per_player p (b.pits.getD i 0)
              (Slot.pit i)).getLastD (Slot.pit i)) p = some (r, b'))) := by
  by_cases hi : i < b.pits.length
  · refine ⟨hi, ?_⟩
    by_cases h0 : b.pits.getD i 0 = 0
    · rw [move_empty b i p hi h0] at h
      cases h
      exact Or.inl ⟨h0, rfl, rfl⟩
    · rw [move_nonempty b i p hi h0] at h
      exact Or.inr ⟨h0, h⟩
  · rw [move_out_of_range b i p hi] at h
    cases h

theorem sow_board_nbpp (b : MancalaBoard) (i p : Nat) :
    ((sowTrace b.num_buckets_per_player p (b.pits.getD i 0)
        (Slot.pit i)).foldl MancalaBoard.add_bead
      { b with pits := b.pits.set i 0 }).num_buckets_per_player =
      b.num_buckets_per_player := by
  rw [foldl_add_bead_nbpp]

theorem sow_board_length (b : MancalaBoard) (i p : Nat) :
    ((sowTrace b.num_buckets_per_player p (b.pits.getD i 0)
        (Slot.pit i)).foldl MancalaBoard.add_bead
      { b with pits := b.pits.set i 0 }).pits.length = b.pits.length := by
  rw [foldl_add_bead_length]
  simp

theorem moveResolution_nbpp (board : MancalaBoard) (bucket : Slot)
    (player : Nat) (r : Except MancalaError Bool) (b' : MancalaBoard)
    (h : moveResolution board bucket player = some (r, b')) :
    b'.num_buckets_per_player = board.num_buckets_per_player ∧
    b'.pits.length = board.pits.length := by
  rcases (moveResolution_spec board bucket player r b' h).2 with h1 | ⟨m, _, _, _, _, h1⟩ <;>
    subst h1 <;>
    simp [set_num_beads_nbpp, set_num_beads_length]

theorem applyMove_nbpp (b : MancalaBoard) (m : Nat × Nat) :
    (applyMove b m).num_buckets_per_player = b.num_buckets_per_player ∧
    (applyMove b m).pits.length = b.pits.length := by
  unfold applyMove
  rcases hmv : b.move m.1 m.2 with _ | ⟨r, b'⟩
  · exact ⟨rfl, rfl⟩
  · obtain ⟨hi, hcase⟩ := move_some b m.1 m.2 r b' hmv
    rcases hcase with ⟨_, _, hb⟩ | ⟨_, hres⟩
    · subst hb; exact ⟨rfl, rfl⟩
    · obtain ⟨h1, h2⟩ := moveResolution_nbpp _ _ _ _ _ hres
      rw [h1, h2, sow_board_nbpp, sow_board_length]
      exact ⟨rfl, rfl⟩

theorem applyMove_wf (b : MancalaBoard) (m : Nat × Nat) (hw : b.Wf) :
    (applyMove b m).Wf := by
  unfold MancalaBoard.Wf at hw ⊢
  rw [(applyMove_nbpp b m).1, (applyMove_nbpp b m).2, hw]

theorem sow_board_total (b : MancalaBoard) (i p : Nat) (hw : b.Wf)
    (hi : i < b.pits.length) :
    ((sowTrace b.num_buckets_per_player p (b.pits.getD i 0)
        (Slot.pit i)).foldl MancalaBoard.add_bead
      { b with pits := b.pits.set i 0 }).total = b.total := by
  have hn : 1 ≤ b.num_buckets_per_player := by
    unfold MancalaBoard.Wf at hw; omega
  have hi2 : i < 2 * b.num_buckets_per_player := by
    unfold MancalaBoard.Wf at hw; omega
  have hok : ∀ t ∈ sowTrace b.num_buckets_per_player p (b.pits.getD i 0)
      (Slot.pit i), ∀ j, t = Slot.pit j →
      j < ({ b with pits := b.pits.set i 0 } : MancalaBoard).pits.length := by
    intro t ht j hj
    have := sowTrace_range b.num_buckets_per_player p hn (b.pits.getD i 0)
      (Slot.pit i) (by simp) ((inRange_pit ..).mpr hi2) t ht
    subst hj
    have hjr := (inRange_pit ..).mp this
    simp only [List.length_set]
    unfold MancalaBoard.Wf at hw
    omega
  rw [total_foldl _ _ hok,
    (sowAux_spec b.num_buckets_per_player p (b.pits.getD i 0)
      (Slot.pit i) { b with pits := b.pits.set i 0 } (by simp)).2.1]
  have hset := sum_set_add b.pits i 0 hi
  simp only [MancalaBoard.total]
  omega

theorem moveResolution_total (board : MancalaBoard) (bucket : Slot)
    (player : Nat) (r : Except MancalaError Bool) (b' : MancalaBoard)
    (hw : board.Wf) (h : moveResolution board bucket player = some (r, b')) :
    b'.total = board.total := by
  rcases (moveResolution_spec board bucket player r b' h).2 with h1 | ⟨m, _, hm, _, hp, h1⟩
  · rw [h1]
  · subst h1
    have hopp : 2 * board.num_buckets_per_player - 1 - m < board.pits.length := by
      unfold MancalaBoard.Wf at hw; omega
    have h1 := total_set_pit board (2 * board.num_buckets_per_player - 1 - m) 0 hopp
    have hb1 : (board.set_num_beads
        (Slot.pit (2 * board.num_buckets_per_player - 1 - m)) 0).p1_scoring_bucket =
        board.p1_scoring_bucket := rfl
    have hb2 : (board.set_num_beads
        (Slot.pit (2 * board.num_buckets_per_player - 1 - m)) 0).p2_scoring_bucket =
        board.p2_scoring_bucket := rfl
    rcases hp with hp | hp <;> subst hp
    · simp only [show own_scoring 1 = Slot.p1_scoring from rfl,
        MancalaBoard.num_beads] at h1 ⊢
      have h2 := total_set_p1
        (board.set_num_beads (Slot.pit (2 * board.num_buckets_per_player - 1 - m)) 0)
        (board.p1_scoring_bucket +
          board.pits.getD (2 * board.num_buckets_per_player - 1 - m) 0)
      rw [hb1] at h2
      omega
    · simp only [show own_scoring 2 = Slot.p2_scoring from rfl,
        MancalaBoard.num_beads] at h1 ⊢
      have h2 := total_set_p2
        (board.set_num_beads (Slot.pit (2 * board.num_buckets_per_player - 1 - m)) 0)
        (board.p2_scoring_bucket +
          board.pits.getD (2 * board.num_buckets_per_player - 1 - m) 0)
      rw [hb2] at h2
      omega

theorem total_applyMove (b : MancalaBoard) (m : Nat × Nat) (hw : b.Wf) :
    (applyMove b m).total = b.total := by
  unfold applyMove
  rcases hmv : b.move m.1 m.2 with _ | ⟨r, b'⟩
  · rfl
  · obtain ⟨hi, hcase⟩ := move_some b m.1 m.2 r b' hmv
    rcases hcase with ⟨_, _, hb⟩ | ⟨_, hres⟩
    · subst hb; rfl
    · have hwsow : ((sowTrace b.num_buckets_per_player m.2 (b.pits.getD m.1 0)
          (Slot.pit m.1)).foldl MancalaBoard.add_bead
          { b with pits := b.pits.set m.1 0 }).Wf := by
        unfold MancalaBoard.Wf at hw ⊢
        rw [sow_board_nbpp, sow_board_length, hw]
      rw [moveResolution_total _ _ _ _ _ hwsow hres, sow_board_total b m.1 m.2 hw hi]

theorem total_applyMoves (moves : List (Nat × Nat)) :
    ∀ b : MancalaBoard, b.Wf →
      (applyMoves b moves).total = b.total ∧ (applyMoves b moves).Wf := by
  induction moves with
  | nil => intro b hw; exact ⟨rfl, hw⟩
  | cons m ms ih =>
    intro b hw
    have h1 := total_applyMove b m hw
    have h2 := applyMove_wf b m hw
    have h3 := ih (applyMove b m) h2
    unfold applyMoves at h3 ⊢
    rw [List.foldl_cons]
    exact ⟨h3.1.trans h1, h3.2⟩

theorem stores_set_pit (b : MancalaBoard) (j n : Nat) :
    (b.set_num_beads (Slot.pit j) n).p1_scoring_bucket = b.p1_scoring_bucket ∧
    (b.set_num_beads (Slot.pit j) n).p2_scoring_bucket = b.p2_scoring_bucket :=
  ⟨rfl, rfl⟩

theorem stores_moveResolution_le (board : MancalaBoard) (bucket : Slot)
    (player : Nat) (r : Except MancalaError Bool) (b' : MancalaBoard)
    (h : moveResolution board bucket player = some (r, b')) :
    board.p1_scoring_bucket ≤ b'.p1_scoring_bucket ∧
    board.p2_scoring_bucket ≤ b'.p2_scoring_bucket := by
  rcases (moveResolution_spec board bucket player r b' h).2 with h1 | ⟨m, _, _, _, hp, h1⟩
  · subst h1; exact ⟨le_refl _, le_refl _⟩
  · subst h1
    rcases hp with hp | hp <;> subst hp
    · simp only [show own_scoring 1 = Slot.p1_scoring from rfl,
        MancalaBoard.set_num_beads, MancalaBoard.num_beads]
      exact ⟨Nat.le_add_right _ _, le_refl _⟩
    · simp only [show own_scoring 2 = Slot.p2_scoring from rfl,
        MancalaBoard.set_num_beads, MancalaBoard.num_beads]
      exact ⟨le_refl _, Nat.le_add_right _ _⟩

theorem stores_applyMove_le (b : MancalaBoard) (m : Nat × Nat) :
    b.p1_scoring_bucket ≤ (applyMove b m).p1_scoring_bucket ∧
    b.p2_scoring_bucket ≤ (applyMove b m).p2_scoring_bucket := by
  unfold applyMove
  rcases hmv : b.move m.1 m.2 with _ | ⟨r, b'⟩
  · exact ⟨le_refl _, le_refl _⟩
  · obtain ⟨hi, hcase⟩ := move_some b m.1 m.2 r b' hmv
    rcases hcase with ⟨_, _, hb⟩ | ⟨_, hres⟩
    · subst hb; exact ⟨le_refl _, le_refl _⟩
    · have hs1 := num_beads_foldl_le
        (sowTrace b.num_buckets_per_player m.2 (b.pits.getD m.1 0) (Slot.pit m.1))
        Slot.p1_scoring { b with pits := b.pits.set m.1 0 }
      have hs2 := num_beads_foldl_le
        (sowTrace b.num_buckets_per_player m.2 (b.pits.getD m.1 0) (Slot.pit m.1))
        Slot.p2_scoring { b with pits := b.pits.set m.1 0 }
      have hres2 := stores_moveResolution_le _ _ _ _ _ hres
      simp only [MancalaBoard.num_beads] at hs1 hs2
      exact ⟨le_trans hs1 hres2.1, le_trans hs2 hres2.2⟩

theorem stores_applyOp_le (b : MancalaBoard) (op : EngineOp) :
    b.p1_scoring_bucket ≤ (applyOp b op).p1_scoring_bucket ∧
    b.p2_scoring_bucket ≤ (applyOp b op).p2_scoring_bucket := by
  cases op with
  | move i p => exact stores_applyMove_le b (i, p)
  | take_all s =>
    cases s with
    | pit j =>
      simp only [applyOp, MancalaBoard.take_all, MancalaBoard.bucket,
        MancalaBucket.get_beads, Slot.scoring]
      exact ⟨le_refl _, le_refl _⟩
    | p1_scoring =>
      simp only [applyOp, MancalaBoard.take_all, MancalaBoard.bucket,
        MancalaBucket.get_beads, Slot.scoring]
      exact ⟨le_refl _, le_refl _⟩
    | p2_scoring =>
      simp only [applyOp, MancalaBoard.take_all, MancalaBoard.bucket,
        MancalaBucket.get_beads, Slot.scoring]
      exact ⟨le_refl _, le_refl _⟩
  | add_beads s n =>
    by_cases hn : n < 0
    · simp only [applyOp, MancalaBoard.add_beads_at, MancalaBoard.bucket,
        MancalaBucket.add_beads, if_pos hn]
      exact ⟨le_refl _, le_refl _⟩
    · cases s with
      | pit j =>
        simp only [applyOp, MancalaBoard.add_beads_at, MancalaBoard.bucket,
          MancalaBucket.add_beads, if_neg hn, MancalaBoard.set_num_beads]
        exact ⟨le_refl _, le_refl _⟩
      | p1_scoring =>
        simp only [applyOp, MancalaBoard.add_beads_at, MancalaBoard.bucket,
          MancalaBucket.add_beads, if_neg hn, MancalaBoard.set_num_beads,
          MancalaBoard.num_beads]
        exact ⟨Nat.le_add_right _ _, le_refl _⟩
      | p2_scoring =>
        simp only [applyOp, MancalaBoard.add_beads_at, MancalaBoard.bucket,
          MancalaBucket.add_beads, if_neg hn, MancalaBoard.set_num_beads,
          MancalaBoard.num_beads]
        exact ⟨le_refl _, Nat.le_add_right _ _⟩

theorem stores_applyOps_le (ops : List EngineOp) :
    ∀ b : MancalaBoard,
      b.p1_scoring_bucket ≤ (applyOps b ops).p1_scoring_bucket ∧
      b.p2_scoring_bucket ≤ (applyOps b ops).p2_scoring_bucket := by
  induction ops with
  | nil => intro b; exact ⟨le_refl _, le_refl _⟩
  | cons op rest ih =>
    intro b
    have h1 := stores_applyOp_le b op
    have h2 := ih (applyOp b op)
    unfold applyOps at h2 ⊢
    rw [List.foldl_cons]
    exact ⟨le_trans h1.1 h2.1, le_trans h1.2 h2.2⟩

theorem filter_range_lt (N : Nat) (L : Nat) :
    (List.range L).filter (fun i => decide (i < N)) = List.range (min N L) := by
  induction L with
  | zero => simp
  | succ L ih =>
    rw [List.range_succ, List.filter_append, ih]
    by_cases h : L < N
    · have h1 : min N (L + 1) = L + 1 := by omega
      have h2 : min N L = L := by omega
      simp only [h1, h2, List.filter_cons, List.filter_nil]
      rw [List.range_succ]
      simp [h]
    · have h1 : min N (L + 1) = min N L := by omega
      simp only [h1, List.filter_cons, List.filter_nil]
      simp [h]

theorem map_getD_range (l : List Nat) :
    ∀ n : Nat, n ≤ l.length →
      (List.range n).map (fun i => l.getD i 0) = l.take n := by
  intro n
  induction n with
  | zero => simp
  | succ n ih =>
    intro h
    rw [List.range_succ, List.map_append, ih (by omega), List.take_succ]
    congr 1
    have hn : n < l.length := by omega
    rw [List.getElem?_eq_getElem hn]
    simp [List.getD_eq_getElem?_getD, List.getElem?_eq_getElem hn]

theorem owner_filter_one (b : MancalaBoard) :
    (List.range b.pits.length).filter
        (fun i => Slot.owner b.num_buckets_per_player (Slot.pit i) == 1) =
      (List.range b.pits.length).filter
        (fun i => decide (i < b.num_buckets_per_player)) := by
  apply List.filter_congr
  intro x _
  by_cases h : x < b.num_buckets_per_player <;> simp [Slot.owner, h]

theorem owner_beq_two_not (nbpp x : Nat) :
    (Slot.owner nbpp (Slot.pit x) == 2) =
      !(Slot.owner nbpp (Slot.pit x) == 1) := by
  by_cases h : x < nbpp <;> simp [Slot.owner, h]

theorem gb1_eq_take (b : MancalaBoard) (hw : b.Wf) :
    b.get_buckets_for_player 1 = b.pits.take b.num_buckets_per_player := by
  unfold MancalaBoard.get_buckets_for_player
  rw [owner_filter_one, filter_range_lt]
  have hmin : min b.num_buckets_per_player b.pits.length =
      b.num_buckets_per_player := by
    unfold MancalaBoard.Wf at hw; omega
  rw [hmin, map_getD_range _ _ (by unfold MancalaBoard.Wf at hw; omega)]

theorem gb_sum_total (b : MancalaBoard) :
    (b.get_buckets_for_player 1).sum + (b.get_buckets_for_player 2).sum =
      b.pits.sum := by
  unfold MancalaBoard.get_buckets_for_player
  have h2 : (List.range b.pits.length).filter
      (fun i => Slot.owner b.num_buckets_per_player (Slot.pit i) == 2) =
      (List.range b.pits.length).filter
        (fun i => !(Slot.owner b.num_buckets_per_player (Slot.pit i) == 1)) :=
    List.filter_congr (fun x _ => owner_beq_two_not b.num_buckets_per_player x)
  rw [h2]
  have hperm := List.filter_append_perm
    (fun i => Slot.owner b.num_buckets_per_player (Slot.pit i) == 1)
    (List.range b.pits.length)
  have hmap := (hperm.map (fun i => b.pits.getD i 0)).sum_eq
  rw [List.map_append, List.sum_append] at hmap
  rw [hmap, map_getD_range _ _ (le_refl _), List.take_length]

theorem gb2_sum_drop (b : MancalaBoard) (hw : b.Wf) :
    (b.get_buckets_for_player 2).sum =
      (b.pits.drop b.num_buckets_per_player).sum := by
  have ht := gb_sum_total b
  rw [gb1_eq_take b hw] at ht
  have hsplit : (b.pits.take b.num_buckets_per_player).sum +
      (b.pits.drop b.num_buckets_per_player).sum = b.pits.sum := by
    rw [← List.sum_append, List.take_append_drop]
  omega

theorem moveResolution_isSome (board : MancalaBoard) (bucket : Slot)
    (player : Nat) (hin : InRange board.num_buckets_per_player bucket) :
    ∃ r b', moveResolution board bucket player = some (r, b') := by
  by_cases hsc : bucket.scoring = true
  · exact ⟨_, _, moveResolution_scoring board bucket player hsc⟩
  · rw [Bool.not_eq_true] at hsc
    by_cases hcond : Slot.owner board.num_buckets_per_player bucket = player ∧
        board.num_beads bucket = 1
    · obtain ⟨m, hbm⟩ : ∃ m, bucket = Slot.pit m := by
        cases bucket with
        | pit i => exact ⟨i, rfl⟩
        | p1_scoring => simp [Slot.scoring] at hsc
        | p2_scoring => simp [Slot.scoring] at hsc
      subst hbm
      have hm : m < 2 * board.num_buckets_per_player := (inRange_pit ..).mp hin
      have hp : player = 1 ∨ player = 2 := by
        rcases hcond with ⟨hown, _⟩
        rw [← hown]
        simp only [Slot.owner]
        by_cases hio : m < board.num_buckets_per_player <;> simp [hio]
      by_cases hc : board.num_beads
          (Slot.pit (2 * board.num_buckets_per_player - 1 - m)) = 0
      · exact ⟨_, _, moveResolution_capture_empty board m player
          hcond.1 hcond.2 hm hc⟩
      · exact ⟨_, _, moveResolution_capture board m player hp
          hcond.1 hcond.2 hm hc⟩
    · exact ⟨_, _, moveResolution_no_capture board bucket player hsc hcond⟩

theorem scoring_last_iff (nbpp p : Nat) (hp : p = 1 ∨ p = 2) (last : Slot)
    (hskip : skip nbpp p last = false) (hne : last ≠ Slot.p2_scoring) :
    last.scoring = true ↔ last = own_scoring p := by
  rcases hp with hp | hp <;> subst hp <;> cases last <;>
    simp_all [skip, Slot.scoring, Slot.owner, own_scoring]

theorem own_scoring_ne_pit (p i : Nat) : own_scoring p ≠ Slot.pit i := by
  unfold own_scoring
  split <;> simp

theorem capture_as_bucket_ops_p1 (board : MancalaBoard) (j : Nat) :
    ((board.take_all (Slot.pit j)).2.add_beads_at Slot.p1_scoring
        ((board.num_beads (Slot.pit j) : Nat) : Int)).2 =
      (board.set_num_beads (Slot.pit j) 0).set_num_beads Slot.p1_scoring
        (board.p1_scoring_bucket + board.num_beads (Slot.pit j)) := by
  have h2 : ¬ ((board.num_beads (Slot.pit j) : Int) < 0) :=
    not_lt.mpr (Int.natCast_nonneg _)
  simp only [MancalaBoard.add_beads_at, MancalaBoard.bucket,
    MancalaBucket.add_beads, if_neg h2]
  rfl

theorem capture_as_bucket_ops_p2 (board : MancalaBoard) (j : Nat) :
    ((board.take_all (Slot.pit j)).2.add_beads_at Slot.p2_scoring
        ((board.num_beads (Slot.pit j) : Nat) : Int)).2 =
      (board.set_num_beads (Slot.pit j) 0).set_num_beads Slot.p2_scoring
        (board.p2_scoring_bucket + board.num_beads (Slot.pit j)) := by
  have h2 : ¬ ((board.num_beads (Slot.pit j) : Int) < 0) :=
    not_lt.mpr (Int.natCast_nonneg _)
  simp only [MancalaBoard.add_beads_at, MancalaBoard.bucket,
    MancalaBucket.add_beads, if_neg h2]
  rfl

theorem sowPos_step (nbpp player : Nat) (hn : 1 ≤ nbpp) (s t : Slot)
    (he : Eligible nbpp player s)
    (ht : nextTarget nbpp player s = some t) :
    Eligible nbpp player t ∧
    sowPos nbpp t = (sowPos nbpp s + 1) % sowPeriod nbpp player := by
  obtain ⟨hin, hp2, hp1⟩ := he
  rw [nextTarget_closed] at ht
  cases s with
  | pit j =>
    have hj : j < 2 * nbpp := (inRange_pit ..).mp hin
    by_cases h2 : j + 1 = 2 * nbpp
    · by_cases hpl : player = 1
      · simp [nextTargetC, h2, hpl] at ht
        subst ht
        refine ⟨⟨inRange_p1 nbpp, by simp, fun hne => absurd hpl hne⟩, ?_⟩
        simp only [sowPos, sowPeriod, hpl, if_pos rfl, if_true, h2]
        rw [Nat.mod_eq_of_lt (by omega)]
      · simp [nextTargetC, h2, hpl] at ht
        subst ht
        refine ⟨⟨(inRange_pit ..).mpr (by omega), by simp, fun _ => by simp⟩, ?_⟩
        simp only [sowPos, sowPeriod, if_neg hpl, h2]
        rw [Nat.mod_self]
    · simp [nextTargetC, h2] at ht
      subst ht
      refine ⟨⟨(inRange_pit ..).mpr (by omega), by simp, fun _ => by simp⟩, ?_⟩
      simp only [sowPos, sowPeriod]
      split <;> rw [Nat.mod_eq_of_lt (by omega)]
  | p1_scoring =>
    by_cases hpl : player = 1
    · simp [nextTargetC] at ht
      subst ht
      refine ⟨⟨(inRange_pit ..).mpr (by omega), by simp, fun _ => by simp⟩, ?_⟩
      simp only [sowPos, sowPeriod, hpl, if_pos rfl, if_true]
      rw [Nat.mod_self]
    · exact absurd rfl (hp1 hpl)
  | p2_scoring => exact absurd rfl hp2

theorem sowTrace_pos (nbpp player : Nat) (hn : 1 ≤ nbpp) :
    ∀ (beads : Nat) (s : Slot), Eligible nbpp player s →
      ∀ n : Nat, n < (sowTrace nbpp player beads s).length →
        sowPos nbpp ((sowTrace nbpp player beads s).getD n Slot.p2_scoring) =
          (sowPos nbpp s + n + 1) % sowPeriod nbpp player := by
  intro beads
  induction beads with
  | zero => intro s _ n hlt; simp [sowTrace] at hlt
  | succ k ih =>
    intro s he n hlt
    obtain ⟨t, ht, _, _⟩ := nextTarget_spec nbpp player s he.2.1
    obtain ⟨het, hpos⟩ := sowPos_step nbpp player hn s t he ht
    have htr : sowTrace nbpp player (k + 1) s = t :: sowTrace nbpp player k t := by
      simp [sowTrace, ht]
    rw [htr] at hlt ⊢
    cases n with
    | zero =>
      rw [List.getD_cons_zero]
      simpa using hpos
    | succ n =>
      rw [List.getD_cons_succ]
      have hlt2 : n < (sowTrace nbpp player k t).length := by
        simpa using hlt
      rw [ih t het n hlt2, hpos, Nat.add_assoc, Nat.mod_add_mod]
      congr 1
      omega

theorem sowPeriod_ge (nbpp player : Nat) : 2 * nbpp ≤ sowPeriod nbpp player := by
  unfold sowPeriod
  split <;> omega

theorem sowTrace_nodup (nbpp player : Nat) (hn : 1 ≤ nbpp) (beads : Nat)
    (s : Slot) (he : Eligible nbpp player s) (hb : beads ≤ 2 * nbpp) :
    (sowTrace nbpp player beads s).Nodup := by
  have hlen := (sowAux_spec nbpp player beads s
    (MancalaBoard.mk nbpp [] 0 0) he.2.1).2.1
  rw [List.nodup_iff_injective_get]
  rintro ⟨a, ha⟩ ⟨c, hc⟩ heq
  have hga : (sowTrace nbpp player beads s).get ⟨a, ha⟩ =
      (sowTrace nbpp player beads s).getD a Slot.p2_scoring := by
    rw [List.getD_eq_getElem?_getD, List.getElem?_eq_getElem ha]
    rfl
  have hgc : (sowTrace nbpp player beads s).get ⟨c, hc⟩ =
      (sowTrace nbpp player beads s).getD c Slot.p2_scoring := by
    rw [List.getD_eq_getElem?_getD, List.getElem?_eq_getElem hc]
    rfl
  have hpa := sowTrace_pos nbpp player hn beads s he a ha
  have hpc := sowTrace_pos nbpp player hn beads s he c hc
  have hmod : (sowPos nbpp s + a + 1) % sowPeriod nbpp player =
      (sowPos nbpp s + c + 1) % sowPeriod nbpp player := by
    rw [← hpa, ← hpc, ← hga, ← hgc, heq]
  have hP := sowPeriod_ge nbpp player
  have ha2 : a < 2 * nbpp := by omega
  have hc2 : c < 2 * nbpp := by omega
  rcases Nat.le_total a c with hac | hac
  · have hdvd := (Nat.modEq_iff_dvd' (by omega :
        sowPos nbpp s + a + 1 ≤ sowPos nbpp s + c + 1)).mp hmod
    have hz : sowPos nbpp s + c + 1 - (sowPos nbpp s + a + 1) = 0 :=
      Nat.eq_zero_of_dvd_of_lt hdvd (by omega)
    simp only [Fin.mk.injEq]
    omega
  · have hdvd := (Nat.modEq_iff_dvd' (by omega :
        sowPos nbpp s + c + 1 ≤ sowPos nbpp s + a + 1)).mp hmod.symm
    have hz : sowPos nbpp s + a + 1 - (sowPos nbpp s + c + 1) = 0 :=
      Nat.eq_zero_of_dvd_of_lt hdvd (by omega)
    simp only [Fin.mk.injEq]
    omega

theorem wf_init (starting_beads num_buckets_per_player : Nat) :
    (MancalaBoard.init starting_beads num_buckets_per_player).Wf := by
  unfold MancalaBoard.Wf MancalaBoard.init
  simp

/-- C2: for every board constructed from `(starting_beads, pits_per_player)`
and every sequence of `move` calls (the property holds whether the calls
succeed, raise, or crash, hence for every sequence of successful calls with
valid pit indices in particular), the sum of the bead counts over all
`2*N + 2` buckets is constant and equals `2*N * starting_beads`. -/
theorem C2_bead_conservation (starting_beads num_buckets_per_player : Nat)
    (moves : List (Nat × Nat)) :
    (applyMoves (MancalaBoard.init starting_beads num_buckets_per_player)
        moves).total = 2 * num_buckets_per_player * starting_beads := by
  rw [(total_applyMoves moves _ (wf_init starting_beads num_buckets_per_player)).1]
  unfold MancalaBoard.total MancalaBoard.init
  simp [List.sum_replicate, smul_eq_mul]

/-- C5: `move(i, player)` on a valid non-scoring pit index raises
`MoveError` (the spec's `NoBeadsToMove`) iff pit `i` holds zero beads at the
time of the call, and in the error case the board is exactly the board
before the call (the zeroing performed by `get_beads` rewrote the zero that
was already there). -/
theorem C5_no_beads_iff (b : MancalaBoard) (i p : Nat) (hw : b.Wf)
    (hi : i < 2 * b.num_buckets_per_player) :
    ((∃ e b', b.move i p = some (Except.error e, b')) ↔
      b.pits.getD i 0 = 0) ∧
    (∀ e b', b.move i p = some (Except.error e, b') → b' = b) := by
  have hi2 : i < b.pits.length := by unfold MancalaBoard.Wf at hw; omega
  constructor
  · constructor
    · rintro ⟨e, b', he⟩
      by_contra h0
      rw [move_nonempty b i p hi2 h0] at he
      exact absurd (moveResolution_spec _ _ _ _ _ he).1 (by simp)
    · intro h0
      exact ⟨MancalaError.MoveError none, b, move_empty b i p hi2 h0⟩
  · intro e b' he
    by_cases h0 : b.pits.getD i 0 = 0
    · rw [move_empty b i p hi2 h0] at he
      have h2 : b = b' := by
        have := (Option.some.injEq _ _).mp he
        exact congrArg Prod.snd this
      exact h2.symm
    · rw [move_nonempty b i p hi2 h0] at he
      exact absurd (moveResolution_spec _ _ _ _ _ he).1 (by simp)

/-- Witness for C5 at a concrete board: one pit per player, player 1's pit
empty. -/
theorem C5_no_beads_iff_witness :
    (MancalaBoard.mk 1 [0, 2] 3 4).Wf ∧
    0 < 2 * (MancalaBoard.mk 1 [0, 2] 3 4).num_buckets_per_player ∧
    (((∃ e b', (MancalaBoard.mk 1 [0, 2] 3 4).move 0 1 =
          some (Except.error e, b')) ↔
        (MancalaBoard.mk 1 [0, 2] 3 4).pits.getD 0 0 = 0) ∧
      (∀ e b', (MancalaBoard.mk 1 [0, 2] 3 4).move 0 1 =
          some (Except.error e, b') → b' = MancalaBoard.mk 1 [0, 2] 3 4)) :=
  ⟨rfl, by decide, C5_no_beads_iff (MancalaBoard.mk 1 [0, 2] 3 4) 0 1 rfl (by decide)⟩

/-- C6: `check_victory()` is true iff player 1's non-scoring pits (the
first `N` entries) sum to zero or player 2's non-scoring pits (the last `N`
entries) sum to zero. -/
theorem C6_check_victory_iff (b : MancalaBoard) (hw : b.Wf) :
    b.check_victory = true ↔
      (b.pits.take b.num_buckets_per_player).sum = 0 ∨
      (b.pits.drop b.num_buckets_per_player).sum = 0 := by
  unfold MancalaBoard.check_victory
  rw [Bool.or_eq_true, beq_iff_eq, beq_iff_eq, gb1_eq_take b hw,
    gb2_sum_drop b hw]

/-- Witness for C6 at a concrete board where player 1 has no beads left. -/
theorem C6_check_victory_iff_witness :
    (MancalaBoard.mk 1 [0, 5] 7 0).Wf ∧
    ((MancalaBoard.mk 1 [0, 5] 7 0).check_victory = true ↔
      ((MancalaBoard.mk 1 [0, 5] 7 0).pits.take 1).sum = 0 ∨
      ((MancalaBoard.mk 1 [0, 5] 7 0).pits.drop 1).sum = 0) :=
  ⟨rfl, C6_check_victory_iff (MancalaBoard.mk 1 [0, 5] 7 0) rfl⟩

/-- C7 as amended: `get_beads` (the spec's `take_all`) on a scoring bucket
raises `MoveError` — the same exception class as the empty-pit error raised
by `move`, not a distinct one — carrying the scoring-bucket message, and
leaves the board unchanged; on a non-scoring bucket it returns the current
count and resets the bucket to zero. -/
theorem C7_take_all_amended (b : MancalaBoard) (s : Slot) :
    (s.scoring = true →
      (b.take_all s).1 = Except.error (MancalaError.MoveError
        (some "Cannot remove beads from a scoring bucket.")) ∧
      (b.take_all s).2 = b ∧
      (MancalaError.MoveError
          (some "Cannot remove beads from a scoring bucket.")).className =
        (MancalaError.MoveError none).className) ∧
    (s.scoring = false →
      (b.take_all s).1 = Except.ok (b.num_beads s) ∧
      (b.take_all s).2 = b.set_num_beads s 0) := by
  constructor
  · intro hs
    rcases (scoring_iff s).mp hs with h | h <;> subst h <;>
      exact ⟨rfl, rfl, rfl⟩
  · intro hs
    cases s with
    | pit i => exact ⟨rfl, rfl⟩
    | p1_scoring => simp [Slot.scoring] at hs
    | p2_scoring => simp [Slot.scoring] at hs

/-- Witness for C7 at concrete buckets: player 1's scoring bucket, and
player 2's pit 1 holding 5 beads. -/
theorem C7_take_all_amended_witness :
    (Slot.p1_scoring.scoring = true →
      ((MancalaBoard.mk 1 [3, 5] 7 9).take_all Slot.p1_scoring).1 =
        Except.error (MancalaError.MoveError
          (some "Cannot remove beads from a scoring bucket.")) ∧
      ((MancalaBoard.mk 1 [3, 5] 7 9).take_all Slot.p1_scoring).2 =
        MancalaBoard.mk 1 [3, 5] 7 9 ∧
      (MancalaError.MoveError
          (some "Cannot remove beads from a scoring bucket.")).className =
        (MancalaError.MoveError none).className) ∧
    (Slot.p1_scoring.scoring = false →
      ((MancalaBoard.mk 1 [3, 5] 7 9).take_all Slot.p1_scoring).1 =
        Except.ok ((MancalaBoard.mk 1 [3, 5] 7 9).num_beads Slot.p1_scoring) ∧
      ((MancalaBoard.mk 1 [3, 5] 7 9).take_all Slot.p1_scoring).2 =
        (MancalaBoard.mk 1 [3, 5] 7 9).set_num_beads Slot.p1_scoring 0) :=
  C7_take_all_amended (MancalaBoard.mk 1 [3, 5] 7 9) Slot.p1_scoring

/-- Counterexample to C7 as stated: the error raised by `get_beads` on a
scoring bucket and the empty-pit error raised by `move` belong to the same
exception class `MoveError` (there is no distinct `InvalidOperation` class
in the code), so a handler cannot tell them apart. -/
theorem C7_counterexample :
    ((MancalaBoard.mk 1 [3, 4] 7 9).take_all Slot.p1_scoring).1 =
      Except.error (MancalaError.MoveError
        (some "Cannot remove beads from a scoring bucket.")) ∧
    (MancalaBoard.mk 1 [0, 4] 7 9).move 0 1 =
      some (Except.error (MancalaError.MoveError none),
        MancalaBoard.mk 1 [0, 4] 7 9) ∧
    MancalaError.className (MancalaError.MoveError
        (some "Cannot remove beads from a scoring bucket.")) =
      MancalaError.className (MancalaError.MoveError none) := by
  refine ⟨rfl, ?_, rfl⟩
  decide

/-- C8: across every sequence of engine operations, from any state, each
scoring bucket's count never decreases, and every bucket's count stays
non-negative. -/
theorem C8_scoring_never_decreases (b : MancalaBoard) (ops : List EngineOp) :
    b.p1_scoring_bucket ≤ (applyOps b ops).p1_scoring_bucket ∧
    b.p2_scoring_bucket ≤ (applyOps b ops).p2_scoring_bucket ∧
    ∀ s : Slot, (0 : Int) ≤ ((applyOps b ops).num_beads s : Int) :=
  ⟨(stores_applyOps_le ops b).1, (stores_applyOps_le ops b).2,
    fun _ => Int.natCast_nonneg _⟩

/-- C9: on a board with `nbpp` pits per player, `get_opposite` maps the
number `i` of each non-scoring pit to the pit with number
`2*nbpp - 1 - i`, and the opposite map is defined exactly on the numbers of
the non-scoring pits (the scoring buckets' numbers `-1`, `-2` are not
keys). -/
theorem C9_get_opposite (nbpp : Nat) :
    (∀ i : Nat, i < 2 * nbpp →
      get_opposite nbpp (Int.ofNat i) = some (Slot.pit (2 * nbpp - 1 - i))) ∧
    (∀ k : Int, (get_opposite nbpp k).isSome ↔ 0 ≤ k ∧ k < 2 * nbpp) := by
  refine ⟨fun i hi => get_opposite_eq nbpp i hi, fun k => ?_⟩
  constructor
  · intro hs
    obtain ⟨s, hsv⟩ := Option.isSome_iff_exists.mp hs
    obtain ⟨m, hk, hm, _⟩ := get_opposite_some nbpp k s hsv
    subst hk
    have h2 : ((m : Nat) : Int) = Int.ofNat m := rfl
    constructor
    · rw [← h2]; exact_mod_cast Nat.zero_le m
    · rw [← h2]; exact_mod_cast hm
  · rintro ⟨hk0, hk2⟩
    have hke : Int.ofNat k.toNat = k := Int.toNat_of_nonneg hk0
    rw [← hke, get_opposite_eq nbpp k.toNat (by omega)]
    rfl

/-- Witness for C9 on the standard board (`nbpp = 6`): pit 2 maps to pit 9,
and the key `-1` (player 1's scoring bucket) is not in the map. -/
theorem C9_get_opposite_witness :
    (get_opposite 6 (Int.ofNat 2) = some (Slot.pit 9)) ∧
    ((get_opposite 6 (-1)).isSome ↔ 0 ≤ (-1 : Int) ∧ (-1 : Int) < 2 * 6) := by
  constructor
  · have h := (C9_get_opposite 6).1 2 (by norm_num)
    simpa using h
  · exact (C9_get_opposite 6).2 (-1)

/-- C10, evaluating the constructed links on the standard board
(`nbpp = 6`): the bucket after player 1's last pit (pit 5) is pit 6, not
player 2's scoring bucket; player 2's scoring bucket has no `next_bucket`
link (`None`) and is not reachable from pit 0; the links form a cycle of
length `2*6 + 1 = 13` (not `2*6 + 2 = 14`); within that cycle no bucket is
skipped when player 1 sows, and exactly player 1's scoring bucket is
skipped when player 2 sows. -/
theorem C10_next_links_eval :
    Slot.next_bucket 6 (Slot.pit 5) = some (Slot.pit 6) ∧
    Slot.next_bucket 6 Slot.p2_scoring = none ∧
    (nextD 6)^[2 * 6 + 1] (Slot.pit 0) = Slot.pit 0 ∧
    (nextD 6)^[2 * 6 + 2] (Slot.pit 0) ≠ Slot.pit 0 ∧
    Slot.p2_scoring ∉
      (List.range (2 * 6 + 2)).map (fun n => (nextD 6)^[n] (Slot.pit 0)) ∧
    ((List.range (2 * 6 + 1)).map (fun n => (nextD 6)^[n] (Slot.pit 0))).filter
      (fun s => skip 6 1 s) = [] ∧
    ((List.range (2 * 6 + 1)).map (fun n => (nextD 6)^[n] (Slot.pit 0))).filter
      (fun s => skip 6 2 s) = [Slot.p1_scoring] := by
  decide

/-- C3: a successful `move` from a non-empty valid pit returns `ok r` with
`r = true` exactly when the last sown bead was deposited into the acting
player's own scoring bucket (the last entry of the sowing trace); every
other landing returns `false`. -/
theorem C3_extra_turn_iff (b : MancalaBoard) (i p : Nat) (hw : b.Wf)
    (hi : i < 2 * b.num_buckets_per_player) (hp : p = 1 ∨ p = 2)
    (h0 : b.pits.getD i 0 ≠ 0) :
    ∃ r b', b.move i p = some (Except.ok r, b') ∧
      (r = true ↔
        (sowTrace b.num_buckets_per_player p (b.pits.getD i 0)
            (Slot.pit i)).getLastD (Slot.pit i) = own_scoring p) := by
  have hi2 : i < b.pits.length := by unfold MancalaBoard.Wf at hw; omega
  have hn : 1 ≤ b.num_buckets_per_player := by
    unfold MancalaBoard.Wf at hw; omega
  obtain ⟨hsow, hlen, hmem⟩ := sowAux_spec b.num_buckets_per_player p
    (b.pits.getD i 0) (Slot.pit i) { b with pits := b.pits.set i 0 } (by simp)
  have htne : sowTrace b.num_buckets_per_player p (b.pits.getD i 0)
      (Slot.pit i) ≠ [] := by
    intro hc
    rw [hc] at hlen
    exact h0 hlen.symm
  have hlmem := getLastD_mem _ (Slot.pit i) htne
  obtain ⟨hskip, hnep2⟩ := hmem _ hlmem
  have hinr : InRange b.num_buckets_per_player
      ((sowTrace b.num_buckets_per_player p (b.pits.getD i 0)
        (Slot.pit i)).getLastD (Slot.pit i)) :=
    sowTrace_range b.num_buckets_per_player p hn (b.pits.getD i 0)
      (Slot.pit i) (by simp) ((inRange_pit ..).mpr hi) _ hlmem
  have hnb : ((sowTrace b.num_buckets_per_player p (b.pits.getD i 0)
      (Slot.pit i)).foldl MancalaBoard.add_bead
      { b with pits := b.pits.set i 0 }).num_buckets_per_player =
      b.num_buckets_per_player := by
    rw [foldl_add_bead_nbpp]
  obtain ⟨r0, b', hres⟩ := moveResolution_isSome _ _ p (by rw [hnb]; exact hinr)
  have hr0 := (moveResolution_spec _ _ _ _ _ hres).1
  refine ⟨Slot.scoring ((sowTrace b.num_buckets_per_player p
      (b.pits.getD i 0) (Slot.pit i)).getLastD (Slot.pit i)), b', ?_, ?_⟩
  · rw [move_nonempty b i p hi2 h0, hres, hr0]
  · exact scoring_last_iff b.num_buckets_per_player p hp _ hskip hnep2

/-- Witness for C3: one pit per player; player 1 moves pit 1 holding one
bead, which lands in player 1's own scoring bucket. -/
theorem C3_extra_turn_iff_witness :
    (MancalaBoard.mk 1 [0, 1] 0 0).Wf ∧
    1 < 2 * (MancalaBoard.mk 1 [0, 1] 0 0).num_buckets_per_player ∧
    (MancalaBoard.mk 1 [0, 1] 0 0).pits.getD 1 0 ≠ 0 ∧
    (∃ r b', (MancalaBoard.mk 1 [0, 1] 0 0).move 1 1 =
        some (Except.ok r, b') ∧
      (r = true ↔
        (sowTrace 1 1 ((MancalaBoard.mk 1 [0, 1] 0 0).pits.getD 1 0)
            (Slot.pit 1)).getLastD (Slot.pit 1) = own_scoring 1)) :=
  ⟨rfl, by decide, by decide,
    C3_extra_turn_iff (MancalaBoard.mk 1 [0, 1] 0 0) 1 1 rfl (by decide)
      (Or.inl rfl) (by decide)⟩

/-- C1 as amended: when a move's last sown bead lands in a pit owned by the
mover that held zero beads before that placement (count 1 after placement),
and the opposite pit holds `c` beads, the mover's scoring bucket increases
by `c` (not `c + 1`), the opposite pit ends at zero, and the landing pit
keeps its single bead (it is not emptied); when the opposite pit holds zero
beads no capture occurs.  `bs` abbreviates the post-sowing board. -/
theorem C1_capture_amended (b bs : MancalaBoard) (i p m : Nat) (hw : b.Wf)
    (hi : i < 2 * b.num_buckets_per_player) (hp : p = 1 ∨ p = 2)
    (h0 : b.pits.getD i 0 ≠ 0)
    (hbs : bs = (sowTrace b.num_buckets_per_player p (b.pits.getD i 0)
        (Slot.pit i)).foldl MancalaBoard.add_bead
        { b with pits := b.pits.set i 0 })
    (hlast : (sowTrace b.num_buckets_per_player p (b.pits.getD i 0)
        (Slot.pit i)).getLastD (Slot.pit i) = Slot.pit m)
    (hown : Slot.owner b.num_buckets_per_player (Slot.pit m) = p)
    (h1 : bs.num_beads (Slot.pit m) = 1) :
    ∃ b', b.move i p = some (Except.ok false, b') ∧
      b'.num_beads (own_scoring p) = bs.num_beads (own_scoring p) +
        bs.num_beads (Slot.pit (2 * b.num_buckets_per_player - 1 - m)) ∧
      b'.num_beads (Slot.pit (2 * b.num_buckets_per_player - 1 - m)) = 0 ∧
      b'.num_beads (Slot.pit m) = 1 ∧
      (∀ s : Slot, s ≠ own_scoring p →
        s ≠ Slot.pit (2 * b.num_buckets_per_player - 1 - m) →
        b'.num_beads s = bs.num_beads s) := by
  have hi2 : i < b.pits.length := by unfold MancalaBoard.Wf at hw; omega
  have hn : 1 ≤ b.num_buckets_per_player := by
    unfold MancalaBoard.Wf at hw; omega
  obtain ⟨hsow, hlen, hmem⟩ := sowAux_spec b.num_buckets_per_player p
    (b.pits.getD i 0) (Slot.pit i) { b with pits := b.pits.set i 0 } (by simp)
  have htne : sowTrace b.num_buckets_per_player p (b.pits.getD i 0)
      (Slot.pit i) ≠ [] := by
    intro hc
    rw [hc] at hlen
    exact h0 hlen.symm
  have hlmem := getLastD_mem _ (Slot.pit i) htne
  have hinr : InRange b.num_buckets_per_player (Slot.pit m) := by
    rw [← hlast]
    exact sowTrace_range b.num_buckets_per_player p hn (b.pits.getD i 0)
      (Slot.pit i) (by simp) ((inRange_pit ..).mpr hi) _ hlmem
  have hm : m < 2 * b.num_buckets_per_player := (inRange_pit ..).mp hinr
  have hnb : bs.num_buckets_per_player = b.num_buckets_per_player := by
    rw [hbs, foldl_add_bead_nbpp]
  have hlenbs : bs.pits.length = b.pits.length := by
    rw [hbs, foldl_add_bead_length]
    simp
  have hmoveeq : b.move i p = moveResolution bs (Slot.pit m) p := by
    rw [move_nonempty b i p hi2 h0, hlast, hbs]
  have hopplen : 2 * b.num_buckets_per_player - 1 - m < bs.pits.length := by
    unfold MancalaBoard.Wf at hw
    omega
  have hne_idx : 2 * b.num_buckets_per_player - 1 - m ≠ m := by omega
  by_cases hc : bs.num_beads
      (Slot.pit (2 * b.num_buckets_per_player - 1 - m)) = 0
  · refine ⟨bs, ?_, ?_, hc, h1, fun s _ _ => rfl⟩
    · rw [hmoveeq, moveResolution_capture_empty bs m p
        (by rw [hnb]; exact hown) h1 (by rw [hnb]; exact hm)
        (by rw [hnb]; exact hc)]
    · rw [hc, Nat.add_zero]
  · have hres := moveResolution_capture bs m p hp
      (by rw [hnb]; exact hown) h1 (by rw [hnb]; exact hm)
      (by rw [hnb]; exact hc)
    rw [hnb] at hres
    refine ⟨_, by rw [hmoveeq, hres], ?_, ?_, ?_, ?_⟩
    · rw [num_beads_set_self _ _ _
        (fun j hj => absurd hj (own_scoring_ne_pit p j))]
    · rw [num_beads_set_ne _ _ _ _ (own_scoring_ne_pit p _).symm,
        num_beads_set_self _ _ _ ?_]
      intro j hj
      rw [(Slot.pit.injEq ..).mp hj.symm]
      exact hopplen
    · rw [num_beads_set_ne _ _ _ _ (own_scoring_ne_pit p _).symm,
        num_beads_set_ne, h1]
      intro hcon
      exact hne_idx ((Slot.pit.injEq ..).mp hcon).symm
    · intro s hs1 hs2
      rw [num_beads_set_ne _ _ _ _ hs1, num_beads_set_ne _ _ _ _ hs2]

/-- Witness for C1 as amended: two pits per player; player 1 moves pit 0
holding one bead, landing in own empty pit 1; the opposite pit 2 holds 5
beads; the store gains 5, pit 2 empties, pit 1 keeps its bead. -/
theorem C1_capture_amended_witness :
    (MancalaBoard.mk 2 [1, 0, 5, 0] 0 0).Wf ∧
    0 < 2 * (MancalaBoard.mk 2 [1, 0, 5, 0] 0 0).num_buckets_per_player ∧
    (MancalaBoard.mk 2 [1, 0, 5, 0] 0 0).pits.getD 0 0 ≠ 0 ∧
    (MancalaBoard.mk 2 [0, 1, 5, 0] 0 0 =
      (sowTrace 2 1 ((MancalaBoard.mk 2 [1, 0, 5, 0] 0 0).pits.getD 0 0)
          (Slot.pit 0)).foldl MancalaBoard.add_bead
        (MancalaBoard.mk 2 [0, 0, 5, 0] 0 0)) ∧
    ((sowTrace 2 1 ((MancalaBoard.mk 2 [1, 0, 5, 0] 0 0).pits.getD 0 0)
        (Slot.pit 0)).getLastD (Slot.pit 0) = Slot.pit 1) ∧
    Slot.owner 2 (Slot.pit 1) = 1 ∧
    (MancalaBoard.mk 2 [0, 1, 5, 0] 0 0).num_beads (Slot.pit 1) = 1 ∧
    (∃ b', (MancalaBoard.mk 2 [1, 0, 5, 0] 0 0).move 0 1 =
        some (Except.ok false, b') ∧
      b'.num_beads (own_scoring 1) =
        (MancalaBoard.mk 2 [0, 1, 5, 0] 0 0).num_beads (own_scoring 1) +
          (MancalaBoard.mk 2 [0, 1, 5, 0] 0 0).num_beads (Slot.pit 2) ∧
      b'.num_beads (Slot.pit 2) = 0 ∧
      b'.num_beads (Slot.pit 1) = 1 ∧
      (∀ s : Slot, s ≠ own_scoring 1 → s ≠ Slot.pit 2 →
        b'.num_beads s =
          (MancalaBoard.mk 2 [0, 1, 5, 0] 0 0).num_beads s)) := by
  have htrace : sowTrace 2 1 1 (Slot.pit 0) = [Slot.pit 1] := by
    simp [sowTrace, nextTarget_closed, nextTargetC]
  have hbs : MancalaBoard.mk 2 [0, 1, 5, 0] 0 0 =
      (sowTrace 2 1 ((MancalaBoard.mk 2 [1, 0, 5, 0] 0 0).pits.getD 0 0)
          (Slot.pit 0)).foldl MancalaBoard.add_bead
        (MancalaBoard.mk 2 [0, 0, 5, 0] 0 0) := by
    rw [show sowTrace 2 1 ((MancalaBoard.mk 2 [1, 0, 5, 0] 0 0).pits.getD 0 0)
        (Slot.pit 0) = [Slot.pit 1] from htrace]
    decide
  have hlast : (sowTrace 2 1 ((MancalaBoard.mk 2 [1, 0, 5, 0] 0 0).pits.getD 0 0)
      (Slot.pit 0)).getLastD (Slot.pit 0) = Slot.pit 1 := by
    rw [show sowTrace 2 1 ((MancalaBoard.mk 2 [1, 0, 5, 0] 0 0).pits.getD 0 0)
        (Slot.pit 0) = [Slot.pit 1] from htrace]
    rfl
  exact ⟨rfl, by decide, by decide, hbs, hlast, rfl, rfl,
    C1_capture_amended (MancalaBoard.mk 2 [1, 0, 5, 0] 0 0)
      (MancalaBoard.mk 2 [0, 1, 5, 0] 0 0) 0 1 1 rfl (by decide)
      (Or.inl rfl) (by decide) hbs hlast rfl rfl⟩

/-- Counterexample to C1 as stated: player 1 moves pit 0 of the board
`[1, 0, 5, 0]` (two pits per player); the last bead lands in own empty pit
1 and the opposite pit 2 holds 5 beads, yet the scoring bucket gains only 5
(not `5 + 1`) and the landing pit keeps its bead instead of ending at
zero. -/
theorem C1_counterexample :
    (sowTrace 2 1 1 (Slot.pit 0)).getLastD (Slot.pit 0) = Slot.pit 1 ∧
    Slot.owner 2 (Slot.pit 1) = 1 ∧
    ((sowTrace 2 1 1 (Slot.pit 0)).foldl MancalaBoard.add_bead
      (MancalaBoard.mk 2 [0, 0, 5, 0] 0 0)).num_beads (Slot.pit 1) = 1 ∧
    get_opposite 2 (Int.ofNat 1) = some (Slot.pit 2) ∧
    (MancalaBoard.mk 2 [1, 0, 5, 0] 0 0).num_beads (Slot.pit 2) = 5 ∧
    (MancalaBoard.mk 2 [1, 0, 5, 0] 0 0).move 0 1 =
      some (Except.ok false, MancalaBoard.mk 2 [0, 1, 0, 0] 5 0) ∧
    ¬((MancalaBoard.mk 2 [0, 1, 0, 0] 5 0).p1_scoring_bucket = 5 + 1 ∧
      (MancalaBoard.mk 2 [0, 1, 0, 0] 5 0).num_beads (Slot.pit 1) = 0) := by
  have htrace : sowTrace 2 1 1 (Slot.pit 0) = [Slot.pit 1] := by
    simp [sowTrace, nextTarget_closed, nextTargetC]
  refine ⟨by rw [htrace]; rfl, rfl, by rw [htrace]; decide, by decide,
    rfl, ?_, by decide⟩
  rw [move_nonempty _ 0 1 (by decide) (by decide)]
  rw [show (MancalaBoard.mk 2 [1, 0, 5, 0] 0 0).pits.getD 0 0 = 1 from rfl]
  rw [show (MancalaBoard.mk 2 [1, 0, 5, 0] 0 0).num_buckets_per_player = 2
    from rfl]
  rw [htrace]
  decide

/-- C4 as amended: sowing from a pit holding `k > 0` beads makes exactly
`k` one-bead deposits (the `k`-entry sowing trace, which runs along the
next-chain from the bucket after the source), each bucket gaining exactly
its number of occurrences in the trace; when `k` does not exceed one
revolution (`k ≤ 2*N`) the deposit targets are pairwise distinct, so
exactly `k` buckets receive exactly one bead each; the opponent's scoring
bucket is never in the trace (it receives no deposit) and its count is
unchanged by the sowing pass. -/
theorem C4_sowing_pass (b : MancalaBoard) (i p : Nat) (hw : b.Wf)
    (hi : i < 2 * b.num_buckets_per_player) (hp : p = 1 ∨ p = 2)
    (h0 : b.pits.getD i 0 ≠ 0) :
    (sowTrace b.num_buckets_per_player p (b.pits.getD i 0)
        (Slot.pit i)).length = b.pits.getD i 0 ∧
    (∀ x : Slot,
      ((sowTrace b.num_buckets_per_player p (b.pits.getD i 0)
          (Slot.pit i)).foldl MancalaBoard.add_bead
        { b with pits := b.pits.set i 0 }).num_beads x =
        ({ b with pits := b.pits.set i 0 } : MancalaBoard).num_beads x +
          (sowTrace b.num_buckets_per_player p (b.pits.getD i 0)
            (Slot.pit i)).count x) ∧
    (b.pits.getD i 0 ≤ 2 * b.num_buckets_per_player →
      (sowTrace b.num_buckets_per_player p (b.pits.getD i 0)
        (Slot.pit i)).Nodup) ∧
    opponent_scoring p ∉
      sowTrace b.num_buckets_per_player p (b.pits.getD i 0) (Slot.pit i) ∧
    ((sowTrace b.num_buckets_per_player p (b.pits.getD i 0)
        (Slot.pit i)).foldl MancalaBoard.add_bead
      { b with pits := b.pits.set i 0 }).num_beads (opponent_scoring p) =
      b.num_beads (opponent_scoring p) := by
  have hn : 1 ≤ b.num_buckets_per_player := by
    unfold MancalaBoard.Wf at hw; omega
  obtain ⟨hsow, hlen, hmem⟩ := sowAux_spec b.num_buckets_per_player p
    (b.pits.getD i 0) (Slot.pit i) { b with pits := b.pits.set i 0 } (by simp)
  have hok : ∀ t ∈ sowTrace b.num_buckets_per_player p (b.pits.getD i 0)
      (Slot.pit i), ∀ j, t = Slot.pit j →
      j < ({ b with pits := b.pits.set i 0 } : MancalaBoard).pits.length := by
    intro t ht j hj
    have hr := sowTrace_range b.num_buckets_per_player p hn (b.pits.getD i 0)
      (Slot.pit i) (by simp) ((inRange_pit ..).mpr hi) t ht
    subst hj
    have := (inRange_pit ..).mp hr
    simp only [List.length_set]
    unfold MancalaBoard.Wf at hw
    omega
  have hnotmem : opponent_scoring p ∉
      sowTrace b.num_buckets_per_player p (b.pits.getD i 0) (Slot.pit i) := by
    intro hin
    obtain ⟨hskip, hnep2⟩ := hmem _ hin
    rcases hp with hp | hp <;> subst hp
    · exact hnep2 rfl
    · simp [opponent_scoring, skip, Slot.scoring, Slot.owner] at hskip
  refine ⟨hlen, fun x => num_beads_foldl _ x _ hok,
    fun hb => sowTrace_nodup b.num_buckets_per_player p hn _ (Slot.pit i)
      ⟨(inRange_pit ..).mpr hi, by simp, fun _ => by simp⟩ hb,
    hnotmem, ?_⟩
  rw [num_beads_foldl _ _ _ hok, List.count_eq_zero.mpr hnotmem]
  rcases hp with hp | hp <;> subst hp <;> rfl

/-- Witness for C4: one pit per player; player 1 moves pit 0 holding two
beads, sowing into pit 1 and then player 1's scoring bucket; player 2's
scoring bucket receives nothing. -/
theorem C4_sowing_pass_witness :
    (MancalaBoard.mk 1 [2, 1] 0 0).Wf ∧
    0 < 2 * (MancalaBoard.mk 1 [2, 1] 0 0).num_buckets_per_player ∧
    (MancalaBoard.mk 1 [2, 1] 0 0).pits.getD 0 0 ≠ 0 ∧
    ((sowTrace 1 1 ((MancalaBoard.mk 1 [2, 1] 0 0).pits.getD 0 0)
        (Slot.pit 0)).length = (MancalaBoard.mk 1 [2, 1] 0 0).pits.getD 0 0 ∧
    (∀ x : Slot,
      ((sowTrace 1 1 ((MancalaBoard.mk 1 [2, 1] 0 0).pits.getD 0 0)
          (Slot.pit 0)).foldl MancalaBoard.add_bead
        (MancalaBoard.mk 1 [0, 1] 0 0)).num_beads x =
        (MancalaBoard.mk 1 [0, 1] 0 0).num_beads x +
          (sowTrace 1 1 ((MancalaBoard.mk 1 [2, 1] 0 0).pits.getD 0 0)
            (Slot.pit 0)).count x) ∧
    ((MancalaBoard.mk 1 [2, 1] 0 0).pits.getD 0 0 ≤ 2 * 1 →
      (sowTrace 1 1 ((MancalaBoard.mk 1 [2, 1] 0 0).pits.getD 0 0)
        (Slot.pit 0)).Nodup) ∧
    opponent_scoring 1 ∉
      sowTrace 1 1 ((MancalaBoard.mk 1 [2, 1] 0 0).pits.getD 0 0)
        (Slot.pit 0) ∧
    ((sowTrace 1 1 ((MancalaBoard.mk 1 [2, 1] 0 0).pits.getD 0 0)
        (Slot.pit 0)).foldl MancalaBoard.add_bead
      (MancalaBoard.mk 1 [0, 1] 0 0)).num_beads (opponent_scoring 1) =
      (MancalaBoard.mk 1 [2, 1] 0 0).num_beads (opponent_scoring 1)) :=
  ⟨rfl, by decide, by decide,
    C4_sowing_pass (MancalaBoard.mk 1 [2, 1] 0 0) 0 1 rfl (by decide)
      (Or.inl rfl) (by decide)⟩

/-- Counterexample to C4 as stated: with one pit per player, player 1 moves
pit 0 holding 4 beads; the sowing pass wraps around the 3-slot deposit
cycle, so pit 1 receives two beads and only 3 distinct buckets receive
beads — not "exactly one bead into each of exactly 4 buckets". -/
theorem C4_counterexample :
    (MancalaBoard.mk 1 [4, 0] 0 0).pits.getD 0 0 = 4 ∧
    sowTrace 1 1 4 (Slot.pit 0) =
      [Slot.pit 1, Slot.p1_scoring, Slot.pit 0, Slot.pit 1] ∧
    ¬ (sowTrace 1 1 4 (Slot.pit 0)).Nodup ∧
    ((sowTrace 1 1 4 (Slot.pit 0)).foldl MancalaBoard.add_bead
      (MancalaBoard.mk 1 [0, 0] 0 0)).num_beads (Slot.pit 1) = 2 ∧
    (MancalaBoard.mk 1 [4, 0] 0 0).move 0 1 =
      some (Except.ok false, MancalaBoard.mk 1 [1, 2] 1 0) ∧
    ¬(2 = 1) := by
  have htrace : sowTrace 1 1 4 (Slot.pit 0) =
      [Slot.pit 1, Slot.p1_scoring, Slot.pit 0, Slot.pit 1] := by
    simp [sowTrace, nextTarget_closed, nextTargetC]
  refine ⟨rfl, htrace, by rw [htrace]; decide, by rw [htrace]; decide, ?_,
    by decide⟩
  rw [move_nonempty _ 0 1 (by decide) (by decide)]
  rw [show (MancalaBoard.mk 1 [4, 0] 0 0).pits.getD 0 0 = 4 from rfl]
  rw [show (MancalaBoard.mk 1 [4, 0] 0 0).num_buckets_per_player = 1 from rfl]
  rw [htrace]
  decide

end Mancala
